import Mathlib

/-!
# Verification of `jselementsorter` (src/src/elementsorter.js)

Shallow embedding of the `ElementSorter` module: a sorted-insertion routine
(`insertElement` / `_findPosition`), a minimal-move resort routine
(`sortElements`), a sort-expression parser (`parseCondition`) and the
multi-key item comparator (`_compare` / `_compareField`).

Modelling decisions:
* Element handles are opaque; we model them as `Nat`.
* The DOM container is a list of handles; `Node.insertBefore(el, ref)` moves
  `el`: it is first detached from its current position, then inserted
  immediately before `ref` (`ref = none` appends at the end).
* JavaScript runtime values appearing in item-object fields are modelled by
  `JSVal`: `undefined`, `null`, numbers, strings, booleans and `Date`s.
  Numbers and date instants are modelled as `Int` (integer-valued numbers;
  float rounding and `NaN` inputs are outside the modelled value domain).
  String relational comparison is code-unit lexicographic, as in JS.
* Mixed-type relational comparison follows JS coercion for
  `null`/`boolean`/`number`/`Date` (all coerce to numbers); a string compared
  against a non-string coerces via `ToNumber`, which we model for optionally
  signed integer literals (other strings compare as `NaN`, i.e. unordered).
  The spec (§9) leaves mixed-type ordering explicitly unspecified.
-/

/-- A JavaScript runtime value that can appear as a resolved item-object
field value: `undefined`, `null`, number, string, boolean or `Date`
(modelled by its instant). -/
inductive JSVal where
  | undef : JSVal
  | jnull : JSVal
  | num (n : Int) : JSVal
  | str (s : String) : JSVal
  | bool (b : Bool) : JSVal
  | date (t : Int) : JSVal
deriving DecidableEq, Repr

/-- Code-unit lexicographic "less than" on character lists, the order JS uses
for `string < string`. -/
def strLtL : List Char → List Char → Bool
  | [], [] => false
  | [], _ :: _ => true
  | _ :: _, [] => false
  | a :: as, b :: bs =>
    if a.toNat < b.toNat then true
    else if b.toNat < a.toNat then false
    else strLtL as bs

/-- JS string relational comparison (`s < t` for two strings). -/
def jsStrLt (s t : String) : Bool := strLtL s.data t.data

/-! String utilities.  The JS string primitives are re-implemented over
character lists (rather than Lean's byte-position-based `String` functions)
so that every definition evaluates by kernel reduction; for the ASCII
inputs the sorter deals with they agree with `split`/`trim`/`toLowerCase`/
`endsWith` of JS. -/

/-- `s.split(sep)` for a single-character separator (the source only splits
on `","` and `"."`). -/
def splitCharAux (sep : Char) : List Char → List Char → List String
  | [], acc => [String.mk acc.reverse]
  | c :: rest, acc =>
    if c = sep then String.mk acc.reverse :: splitCharAux sep rest []
    else splitCharAux sep rest (c :: acc)

/-- Split a string on a single-character separator. -/
def splitChar (sep : Char) (s : String) : List String :=
  splitCharAux sep s.data []

/-- `s.trim()`: strip leading and trailing whitespace. -/
def trimChars (s : String) : String :=
  String.mk (((s.data.dropWhile Char.isWhitespace).reverse.dropWhile Char.isWhitespace).reverse)

/-- `s.toLowerCase()` (ASCII case folding). -/
def toLowerChars (s : String) : String :=
  String.mk (s.data.map Char.toLower)

/-- `s.endsWith(suffix)`. -/
def endsWithChars (suffix s : String) : Bool :=
  suffix.data.isSuffixOf s.data

/-- `s.slice(0, s.length - n)`: drop the last `n` characters. -/
def dropRightChars (s : String) (n : Nat) : String :=
  String.mk (s.data.take (s.data.length - n))

/-- Decimal digits to a natural number. -/
def digitsToNat (l : List Char) : Nat :=
  l.foldl (fun n c => n * 10 + (c.toNat - 48)) 0

/-- JS `ToNumber` on a string, restricted to optionally signed integer
literals (`""` and all-whitespace are 0, other unparsable strings are `NaN`
= `none`).  Fractional/exponent/hex forms are outside the modelled value
domain. -/
def strToNumber (s : String) : Option Int :=
  match (trimChars s).data with
  | [] => some 0
  | '-' :: ds => if ds ≠ [] ∧ ds.all (·.isDigit) then some (-(digitsToNat ds : Int)) else none
  | '+' :: ds => if ds ≠ [] ∧ ds.all (·.isDigit) then some ((digitsToNat ds : Int)) else none
  | ds => if ds.all (·.isDigit) then some ((digitsToNat ds : Int)) else none

/-- JS `ToNumber` of a primitive value: `none` models `NaN`. -/
def toNumber : JSVal → Option Int
  | .undef => none
  | .jnull => some 0
  | .num n => some n
  | .str s => strToNumber s
  | .bool b => some (if b then 1 else 0)
  | .date t => some t

/-- Numeric comparison of two `ToNumber` results; any `NaN` side makes the
comparison false. -/
def optLt (x y : Option Int) : Bool :=
  match x, y with
  | some a, some b => decide (a < b)
  | _, _ => false

/-- The JS abstract relational comparison `a < b` on primitive values:
string/string compares lexicographically, otherwise both sides are coerced
with `ToNumber` and compared numerically (`NaN` makes the comparison false).
JS `a > b` on primitives coincides with `b < a`. -/
def jsLt (a b : JSVal) : Bool :=
  match a, b with
  | .str s, .str t => jsStrLt s t
  | _, _ => optLt (toNumber a) (toNumber b)

/-- A (possibly nested) item-object field value: either a scalar `JSVal` or
a nested sub-object (an association list of named fields). -/
inductive JSTree where
  | val (v : JSVal) : JSTree
  | obj (fields : List (String × JSTree)) : JSTree

/-- An item object: an application-defined record mapping field names to
scalar or nested values. -/
abbrev ItemObject := List (String × JSTree)

/-- First-match association-list lookup (JS object property access; JS object
keys are unique, so first match is the match). -/
def lookupField : List (String × JSTree) → String → Option JSTree
  | [], _ => none
  | (k, t) :: rest, name => if k = name then some t else lookupField rest name

/-- JS own-property assignment `o[name] = t`: overwrite the value in place
when the key exists (keeping key order), append the key otherwise. -/
def setField : List (String × JSTree) → String → JSTree → List (String × JSTree)
  | [], name, t => [(name, t)]
  | (k, v) :: rest, name, t =>
    if k = name then (k, t) :: rest else (k, v) :: setField rest name t

/-- A node that is still a plain object after consuming the whole path is
coerced by the JS relational operators via `ToPrimitive` to the string
`"[object Object]"`; a scalar yields itself. -/
def treeToVal : JSTree → JSVal
  | .val v => v
  | .obj _ => .str "[object Object]"

/-- Walk a list of path segments down a value tree; any unresolvable
segment (missing property, or property access on a scalar) yields
`undefined`. -/
def resolveSegs : JSTree → List String → JSVal
  | t, [] => treeToVal t
  | .val _, _ :: _ => .undef
  | .obj fields, s :: rest =>
    match lookupField fields s with
    | none => .undef
    | some t => resolveSegs t rest

/-- Modelled from the spec: `ObjectUtils.getPropertyValueByNamePath` of the
external `jsobjectutils` package (not part of this repository) resolves a
dot-separated name path on an item object via nested property traversal; an
unresolvable segment yields `undefined` rather than an error (spec §4.2). -/
def getPropertyValueByNamePath (o : ItemObject) (namePath : String) : JSVal :=
  resolveSegs (.obj o) (splitChar '.' namePath)

/-- Does a name path read the top-level property `"__index"` — the property
`sortElements` uses internally to tag item objects with their original
index?  An order field whose first path segment is `"__index"` compares the
tag values instead of the items' own data. -/
def readsIndexTag (namePath : String) : Bool :=
  match splitChar '.' namePath with
  | s :: _ => s = "__index"
  | [] => false

/-- Modelled from the spec: the `Condition` record of `./condition` (required
by the source but not under `src/`): one order field `{fieldName,
isAscendingOrder}` — the spec's `OrderField {path, ascending}` (§3). -/
structure Condition where
  fieldName : String
  isAscendingOrder : Bool
deriving DecidableEq, Repr

/-- The value-level comparison ladder of `ElementSorter._compareField`
(applied after both name paths have been resolved): the undefined policy,
then the null policy, then JS `<` / `>` on the two values. -/
def cmpVals (leftValue rightValue : JSVal) : Int :=
  if leftValue = .undef ∧ rightValue = .undef then 0
  else if leftValue = .undef then -1
  else if rightValue = .undef then 1
  else if leftValue = .jnull ∧ rightValue = .jnull then 0
  else if leftValue = .jnull then -1
  else if rightValue = .jnull then 1
  else if jsLt leftValue rightValue then -1
  else if jsLt rightValue leftValue then 1
  else 0

namespace ElementSorter

/-- `ElementSorter._compareField`: resolve `namePath` on both item objects
and compare the resolved values (source lines 384–412). -/
def compareField (leftItemObject rightItemObject : ItemObject) (namePath : String) : Int :=
  cmpVals (getPropertyValueByNamePath leftItemObject namePath)
    (getPropertyValueByNamePath rightItemObject namePath)

/-- `ElementSorter._compare`: iterate the conditions in order; the first
field producing a non-zero result decides, negated when that field is
descending; if every field ties (or the list is empty) the result is 0
(source lines 352–371). -/
def compareObjects (leftItemObject rightItemObject : ItemObject) : List Condition → Int
  | [] => 0
  | c :: rest =>
    let fieldResult := compareField leftItemObject rightItemObject c.fieldName
    if fieldResult = 0 then compareObjects leftItemObject rightItemObject rest
    else if c.isAscendingOrder then fieldResult else -fieldResult

/-- `ElementSorter.parseCondition` (source lines 178–205): split the
expression on commas; each trimmed segment whose lowercasing ends in
`"desc"` becomes a descending condition on the re-trimmed prefix, any other
segment an ascending condition; the empty expression parses to no
conditions. -/
def parseCondition (expression : String) : List Condition :=
  if expression = "" then []
  else
    (splitChar ',' expression).map fun segment =>
      let segment := trimChars segment
      if endsWithChars "desc" (toLowerChars segment) then
        { fieldName := trimChars (dropRightChars segment 4), isAscendingOrder := false }
      else
        { fieldName := segment, isAscendingOrder := true }

end ElementSorter

/-! ## The DOM container model -/

/-- Insert `el` immediately before the first occurrence of `ref` in a child
list from which `el` has already been detached. (The DOM raises
`NotFoundError` when `ref` is not a child; every use below supplies a
reference that is present, so we may complete the function by appending.) -/
def insertBeforeRef : List Nat → Nat → Nat → List Nat
  | [], el, _ => [el]
  | x :: xs, el, ref => if x = ref then el :: x :: xs else x :: insertBeforeRef xs el ref

/-- `container.insertBefore(el, ref)`: the DOM first detaches `el` from its
current position (if it is already a child) and then inserts it immediately
before `ref`; `ref = none` ("null") appends at the end. -/
def insertBefore (container : List Nat) (el : Nat) (ref : Option Nat) : List Nat :=
  let detached := container.erase el
  match ref with
  | none => detached ++ [el]
  | some r => insertBeforeRef detached el r

namespace ElementSorter

/-! ## Incremental insertion (`insertElement` / `_findPosition`) -/

/-- The scanning loop of `ElementSorter._findPosition` (source lines
327–336), carrying the index of the head of the remaining list: the result
is the first index at which the new item object compares strictly below the
existing one, and -1 when no such index exists. -/
def findPositionFrom (addItemObject : ItemObject) (conditions : List Condition) :
    List ItemObject → Nat → Int
  | [], _ => -1
  | it :: rest, idx =>
    if compareObjects addItemObject it conditions < 0 then (idx : Int)
    else findPositionFrom addItemObject conditions rest (idx + 1)

/-- `ElementSorter._findPosition` (source lines 319–339): -1 immediately
when there are no conditions, otherwise the first index where the new item
object is strictly smaller (-1 when it is ≥ all existing items). -/
def findPosition (lastItemObjects : List ItemObject) (addItemObject : ItemObject)
    (conditions : List Condition) : Int :=
  if conditions.length = 0 then -1
  else findPositionFrom addItemObject conditions lastItemObjects 0

/-- The per-item loop of `ElementSorter.insertElement` (source lines
240–254), threading the container child list, the mirror array
`lastElements` and its item-object mirror `lastItemObjects`: each new
element is mapped, positioned, inserted into the container before the
handle at the found index (at the end for -1) and spliced into both
mirrors. -/
def insertLoop (f : Nat → ItemObject) (conditions : List Condition) :
    List Nat → List Nat → List ItemObject → List Nat → List Nat × List Nat
  | container, lastElements, _, [] => (container, lastElements)
  | container, lastElements, lastItemObjects, addElement :: rest =>
    let addItemObject := f addElement
    let position := findPosition lastItemObjects addItemObject conditions
    if position = -1 then
      insertLoop f conditions (insertBefore container addElement none)
        (lastElements ++ [addElement]) (lastItemObjects ++ [addItemObject]) rest
    else
      insertLoop f conditions
        (insertBefore container addElement (some (lastElements.getD position.toNat 0)))
        (lastElements.insertIdx position.toNat addElement)
        (lastItemObjects.insertIdx position.toNat addItemObject) rest

/-- `ElementSorter.insertElement` (source lines 235–255) as a state
transformer on the pair (container children, mirror array): map the
existing mirror to item objects, then run the per-item insertion loop. -/
def insertElement (containerElement lastElements addElements : List Nat)
    (conditions : List Condition) (itemObjectMapFunc : Nat → ItemObject) :
    List Nat × List Nat :=
  insertLoop itemObjectMapFunc conditions containerElement lastElements
    (lastElements.map itemObjectMapFunc) addElements

/-! ### `insertElement` with a fallible mapping function

The caller-supplied mapping function may throw (spec §7).  We embed a
throwing call as an `Except`-valued function; the Boolean in the result
records whether an exception escaped `insertElement`, and the returned
state is whatever the container/mirror held at the moment of the throw
(the source attempts no recovery). -/

/-- `lastElements.map(itemObjectMapFunc)` with a fallible mapping function:
the first throw aborts the whole call. -/
def mapItemObjects (fE : Nat → Except Unit ItemObject) : List Nat → Except Unit (List ItemObject)
  | [] => .ok []
  | e :: rest => do
    let it ← fE e
    let its ← mapItemObjects fE rest
    return it :: its

/-- The per-item loop of `insertElement` with a fallible mapping function:
a throw on an element of `addElements` escapes immediately, leaving the
container and both mirrors exactly as the previous iterations left them. -/
def insertLoopExc (fE : Nat → Except Unit ItemObject) (conditions : List Condition) :
    List Nat → List Nat → List ItemObject → List Nat → (List Nat × List Nat) × Bool
  | container, lastElements, _, [] => ((container, lastElements), false)
  | container, lastElements, lastItemObjects, addElement :: rest =>
    match fE addElement with
    | .error _ => ((container, lastElements), true)
    | .ok addItemObject =>
      let position := findPosition lastItemObjects addItemObject conditions
      if position = -1 then
        insertLoopExc fE conditions (insertBefore container addElement none)
          (lastElements ++ [addElement]) (lastItemObjects ++ [addItemObject]) rest
      else
        insertLoopExc fE conditions
          (insertBefore container addElement (some (lastElements.getD position.toNat 0)))
          (lastElements.insertIdx position.toNat addElement)
          (lastItemObjects.insertIdx position.toNat addItemObject) rest

/-- `ElementSorter.insertElement` with a fallible mapping function: a throw
while mapping the existing mirror escapes before any mutation; a throw
inside the per-item loop escapes with the partially updated state. -/
def insertElementExc (containerElement lastElements addElements : List Nat)
    (conditions : List Condition) (fE : Nat → Except Unit ItemObject) :
    (List Nat × List Nat) × Bool :=
  match mapItemObjects fE lastElements with
  | .error _ => ((containerElement, lastElements), true)
  | .ok lastItemObjects =>
    insertLoopExc fE conditions containerElement lastElements lastItemObjects addElements

/-! ## Full resort (`sortElements`) -/

/-- Insert `a` into an already processed list immediately before the first
element that compares strictly above it (after every element it ties with
or exceeds). -/
def insertSorted {α : Type} (cmp : α → α → Int) (a : α) : List α → List α
  | [] => [a]
  | b :: l => if cmp a b < 0 then a :: b :: l else b :: insertSorted cmp a l

/-- `Array.prototype.sort(cmp)`, which ECMAScript requires to be a stable
sort, embedded as the stable left-to-right insertion sort (for a consistent
comparator every stable sort produces this same output). -/
def sortItems {α : Type} (cmp : α → α → Int) (l : List α) : List α :=
  l.foldl (fun acc a => insertSorted cmp a acc) []

/-- The tagging map of `sortElements` (source lines 267–271): each element
is mapped to its item object, on which `itemObject.__index = idx` (line
269) stores the original index as an ordinary `"__index"` property — so an
order field whose name path reads `"__index"` really does compare the tags.
The pair's second component carries the same index for reading the
permutation back: the assignment overwrites any pre-existing `"__index"`
property, so the stored tag is exactly `.num idx` and the readback of
line 277 coincides with the pair component. -/
def taggedItems (lastElements : List Nat) (itemObjectMapFunc : Nat → ItemObject) :
    List (ItemObject × Nat) :=
  lastElements.enum.map fun p =>
    (setField (itemObjectMapFunc p.2) "__index" (.val (.num (p.1 : Int))), p.1)

/-- `targetElementIndexies` (source lines 273–277): sort the tagged item
objects with `_compare` and read back the original indices. -/
def targetElementIndexies (lastElements : List Nat) (conditions : List Condition)
    (itemObjectMapFunc : Nat → ItemObject) : List Nat :=
  (sortItems (fun a b => compareObjects a.1 b.1 conditions)
      (taggedItems lastElements itemObjectMapFunc)).map (·.2)

/-- The sequence of `container.insertBefore` calls issued by the backward
loop of `sortElements` (source lines 299–306): the loop visits rounds
`length-1, length-2, …, 1`, at each round moving the element whose original
index is `targetElementIndexies[round]`, with the previously moved element
as reference (`null` on the very first round).  The processing order is
therefore `(targets.drop 1).reverse`, and each move's reference is the
element moved just before it. -/
def resortMoves (lastElements targets : List Nat) : List (Nat × Option Nat) :=
  let ms := ((targets.drop 1).reverse).map fun i => lastElements.getD i 0
  ms.zip (none :: ms.map some)

/-- Replay a list of `(element, reference)` moves against the container. -/
def runMoves (container : List Nat) (moves : List (Nat × Option Nat)) : List Nat :=
  moves.foldl (fun acc mv => insertBefore acc mv.1 mv.2) container

/-- `ElementSorter.sortElements` (source lines 265–306) as a state
transformer on the pair (container children, mirror array): tag, sort,
replay the permutation with `n−1` `insertBefore` moves.  The source never
writes to the caller's `lastElements` array here, so the mirror component
is returned unchanged. -/
def sortElements (container lastElements : List Nat) (conditions : List Condition)
    (itemObjectMapFunc : Nat → ItemObject) : List Nat × List Nat :=
  (runMoves container
      (resortMoves lastElements (targetElementIndexies lastElements conditions itemObjectMapFunc)),
    lastElements)

end ElementSorter

/-! ## Spec-side definitions (for refinement statements) -/

/-- Modelled from the spec (§8, *Resort correctness*): the reference stable
sort of the handles under `MultiKeyComparator` applied to their mapped item
objects. -/
def referenceStableSort (handles : List Nat) (conditions : List Condition)
    (f : Nat → ItemObject) : List Nat :=
  ElementSorter.sortItems (fun a b => ElementSorter.compareObjects (f a) (f b) conditions) handles

/-- Modelled from the spec (§4.4, step 2): the insertion index for one new
handle is the first index `i` where the new item compares strictly below
`existing[i]`; none (append) when no such index exists or when the order
field list is empty. -/
def insertPositionSpec (mirror : List Nat) (conditions : List Condition)
    (f : Nat → ItemObject) (a : Nat) : Option Nat :=
  if conditions = [] then none
  else mirror.findIdx? fun e => decide (ElementSorter.compareObjects (f a) (f e) conditions < 0)

/-- Modelled from the spec (§4.4, steps 1–3): insert one new handle into the
mirror at `insertPositionSpec` (at the end when it is `none`). -/
def insertStepSpec (conditions : List Condition) (f : Nat → ItemObject)
    (mirror : List Nat) (a : Nat) : List Nat :=
  match insertPositionSpec mirror conditions f a with
  | none => mirror ++ [a]
  | some i => mirror.insertIdx i a

/-- Consecutive-pair chain: `le` holds between every two adjacent
elements. -/
def chainLe {α : Type} (le : α → α → Bool) : List α → Bool
  | [] => true
  | [_] => true
  | a :: b :: rest => le a b && chainLe le (b :: rest)

/-- The sortedness invariant of the mirror array (spec §3/§8): mapping every
handle through the mapping function and comparing consecutive pairs with
the active condition list never yields a positive result. -/
def sortedMirror (conditions : List Condition) (f : Nat → ItemObject) (l : List Nat) : Bool :=
  chainLe (fun a b => decide (ElementSorter.compareObjects (f a) (f b) conditions ≤ 0)) l

/-- Two resolved field values are type-compatible when at least one is
`undefined`/`null` or both have the same supported comparable runtime type
(numeric, string, boolean, date) — the input domain the spec supports
(§3, §4.2). -/
def kindCompat : JSVal → JSVal → Bool
  | .undef, _ => true
  | _, .undef => true
  | .jnull, _ => true
  | _, .jnull => true
  | .num _, .num _ => true
  | .str _, .str _ => true
  | .bool _, .bool _ => true
  | .date _, .date _ => true
  | _, _ => false

/-- A family of handles is well typed for a condition list when, for every
condition, any two of their item objects resolve that condition's name path
to type-compatible values. -/
def wellTypedB (conditions : List Condition) (f : Nat → ItemObject) (handles : List Nat) : Bool :=
  conditions.all fun c =>
    handles.all fun a =>
      handles.all fun b =>
        kindCompat (getPropertyValueByNamePath (f a) c.fieldName)
          (getPropertyValueByNamePath (f b) c.fieldName)

/-- Three item objects are per-field type-compatible for a condition list
when every condition resolves to pairwise type-compatible values on them.
(Stated for a pair; triples use it on each pair.) -/
def fieldsCompat (conditions : List Condition) (A B : ItemObject) : Prop :=
  ∀ c ∈ conditions, kindCompat (getPropertyValueByNamePath A c.fieldName)
    (getPropertyValueByNamePath B c.fieldName) = true

/-- A whole sequence of `insertElement` calls (one entry per call, each with
its batch of new elements), starting from a given container/mirror state. -/
def applyInsertBatches (conditions : List Condition) (f : Nat → ItemObject)
    (init : List Nat × List Nat) (batches : List (List Nat)) : List Nat × List Nat :=
  batches.foldl (fun st adds => ElementSorter.insertElement st.1 st.2 adds conditions f) init

/-- Modelled from the spec (§4.1): one comma-separated token of the sort
expression yields one order field: the token is trimmed; a case-insensitive
"desc" suffix (whitespace-separated or directly appended) means descending
with the marker stripped and the remainder re-trimmed; otherwise
ascending. -/
def tokenOrderField (token : String) : Condition :=
  let token := trimChars token
  if endsWithChars "desc" (toLowerChars token) then
    { fieldName := trimChars (dropRightChars token 4), isAscendingOrder := false }
  else
    { fieldName := token, isAscendingOrder := true }

/-! ### Concrete data used in witnesses and counterexamples -/

/-- The item family of the repository's own test suite
(`src/test/elementsorter.js`): six elements with `id`, `type` and `checked`
fields. -/
def sampleMap : Nat → ItemObject
  | 0 => [("id", .val (.num 5)), ("type", .val (.str "foo")), ("checked", .val (.bool false))]
  | 1 => [("id", .val (.num 2)), ("type", .val (.str "foo")), ("checked", .val (.bool true))]
  | 2 => [("id", .val (.num 1)), ("type", .val (.str "foo")), ("checked", .val (.bool false))]
  | 3 => [("id", .val (.num 6)), ("type", .val (.str "bar")), ("checked", .val (.bool true))]
  | 4 => [("id", .val (.num 9)), ("type", .val (.str "bar")), ("checked", .val (.bool false))]
  | _ => [("id", .val (.num 3)), ("type", .val (.str "bar")), ("checked", .val (.bool true))]

/-- Four handles carrying the field values `undefined`, `null`, `1`, `2`
(handle 0 has no `v` field at all, so the path resolves to `undefined`). -/
def valueMap : Nat → ItemObject
  | 0 => []
  | 1 => [("v", .val .jnull)]
  | 2 => [("v", .val (.num 1))]
  | _ => [("v", .val (.num 2))]

/-- A mixed-type family: a number and a string under the same field (the
kind of input the spec leaves unspecified): handle 0 ↦ 2, handle 1 ↦ "zz",
handle 2 ↦ 1. -/
def mixedMap : Nat → ItemObject
  | 0 => [("v", .val (.num 2))]
  | 1 => [("v", .val (.str "zz"))]
  | _ => [("v", .val (.num 1))]

/-- Two handles whose `v` values are 2 and 1 (handle `h` ↦ `2 - h`), so that
the identity order `[0, 1]` is unsorted and the sorted order is `[1, 0]`. -/
def staleMap : Nat → ItemObject := fun h => [("v", .val (.num (2 - (h : Int))))]

/-- The undefined/null/value rank used by the `_compareField` ladder:
`undefined` sorts below `null`, which sorts below every typed value. -/
def tier : JSVal → Nat
  | .undef => 0
  | .jnull => 1
  | _ => 2

/-- The typed-value branch of the `_compareField` ladder (JS `<` then `>`,
else equal). -/
def typedCmp (v w : JSVal) : Int :=
  if jsLt v w then -1 else if jsLt w v then 1 else 0

/-! ## Order-theoretic properties of the value comparison -/

theorem strLtL_asymm : ∀ (as bs : List Char), strLtL as bs = true → strLtL bs as = false
  | [], [] => by simp [strLtL]
  | [], _ :: _ => by simp [strLtL]
  | _ :: _, [] => by simp [strLtL]
  | a :: as, b :: bs => by
    simp only [strLtL]
    by_cases h1 : a.toNat < b.toNat
    · intro _
      rw [if_neg (by omega), if_pos h1]
    · by_cases h2 : b.toNat < a.toNat
      · intro h
        rw [if_neg h1, if_pos h2] at h
        exact absurd h (by simp)
      · intro h
        rw [if_neg h1, if_neg h2] at h
        rw [if_neg h2, if_neg h1]
        exact strLtL_asymm as bs h

theorem strLtL_irrefl (as : List Char) : strLtL as as = false := by
  cases h : strLtL as as
  · rfl
  · have h2 := strLtL_asymm as as h
    rw [h] at h2
    simp at h2

theorem strLtL_trans : ∀ (as bs cs : List Char),
    strLtL as bs = true → strLtL bs cs = true → strLtL as cs = true
  | [], bs, [] => by
    cases bs <;> simp [strLtL]
  | [], _, _ :: _ => by simp [strLtL]
  | _ :: _, [], _ => by simp [strLtL]
  | _ :: _, _ :: _, [] => by simp [strLtL]
  | a :: as, b :: bs, c :: cs => by
    simp only [strLtL]
    intro h1 h2
    by_cases hab : a.toNat < b.toNat
    · by_cases hbc : b.toNat < c.toNat
      · rw [if_pos (by omega)]
      · rw [if_neg hbc] at h2
        by_cases hcb : c.toNat < b.toNat
        · rw [if_pos hcb] at h2
          exact absurd h2 (by simp)
        · rw [if_pos (by omega)]
    · rw [if_neg hab] at h1
      by_cases hba : b.toNat < a.toNat
      · rw [if_pos hba] at h1
        exact absurd h1 (by simp)
      · rw [if_neg hba] at h1
        by_cases hbc : b.toNat < c.toNat
        · rw [if_pos (by omega)]
        · rw [if_neg hbc] at h2
          by_cases hcb : c.toNat < b.toNat
          · rw [if_pos hcb] at h2
            exact absurd h2 (by simp)
          · rw [if_neg hcb] at h2
            rw [if_neg (by omega), if_neg (by omega)]
            exact strLtL_trans as bs cs h1 h2

theorem strLtL_eq_of_not_lt : ∀ (as bs : List Char),
    strLtL as bs = false → strLtL bs as = false → as = bs
  | [], [] => by simp
  | [], _ :: _ => by simp [strLtL]
  | _ :: _, [] => by simp [strLtL]
  | a :: as, b :: bs => by
    simp only [strLtL]
    intro h1 h2
    by_cases hab : a.toNat < b.toNat
    · rw [if_pos hab] at h1
      exact absurd h1 (by simp)
    · by_cases hba : b.toNat < a.toNat
      · rw [if_pos hba] at h2
        exact absurd h2 (by simp)
      · rw [if_neg hab, if_neg hba] at h1
        rw [if_neg hba, if_neg hab] at h2
        have hchar : a = b := Char.eq_of_val_eq (UInt32.ext (by
          simp only [Char.toNat] at hab hba
          omega))
        rw [hchar, strLtL_eq_of_not_lt as bs h1 h2]

theorem optLt_asymm {x y : Option Int} (h : optLt x y = true) : optLt y x = false := by
  rcases x with _ | a <;> rcases y with _ | b <;> simp_all [optLt]
  omega

theorem optLt_trans {x y z : Option Int} (h1 : optLt x y = true) (h2 : optLt y z = true) :
    optLt x z = true := by
  rcases x with _ | a <;> rcases y with _ | b <;> rcases z with _ | c <;> simp_all [optLt]
  omega

theorem jsLt_asymm {a b : JSVal} (h : jsLt a b = true) : jsLt b a = false := by
  cases a <;> cases b <;> simp only [jsLt, jsStrLt] at h ⊢ <;>
    first
      | exact strLtL_asymm _ _ h
      | exact optLt_asymm h

theorem jsLt_irrefl (a : JSVal) : jsLt a a = false := by
  cases h : jsLt a a
  · rfl
  · have h2 := jsLt_asymm h
    rw [h] at h2
    simp at h2

theorem tier_le_two (v : JSVal) : tier v ≤ 2 := by
  cases v <;> simp [tier]

/-- The `_compareField` value ladder compares tiers first and falls through
to the relational comparison only for two typed values. -/
theorem cmpVals_eq (v w : JSVal) : cmpVals v w =
    if tier v < tier w then -1
    else if tier w < tier v then 1
    else if tier v = 2 then typedCmp v w
    else 0 := by
  cases v <;> cases w <;> simp [cmpVals, tier, typedCmp]

theorem typedCmp_antisymm (v w : JSVal) : typedCmp v w = -typedCmp w v := by
  unfold typedCmp
  by_cases h1 : jsLt v w = true
  · simp [h1, jsLt_asymm h1]
  · by_cases h2 : jsLt w v = true <;> simp [h1, h2]

theorem cmpVals_antisymm (v w : JSVal) : cmpVals v w = -cmpVals w v := by
  rw [cmpVals_eq, cmpVals_eq]
  split_ifs <;> first | exact typedCmp_antisymm v w | omega

theorem cmpVals_vals (v w : JSVal) : cmpVals v w = -1 ∨ cmpVals v w = 0 ∨ cmpVals v w = 1 := by
  rw [cmpVals_eq]
  unfold typedCmp
  split_ifs <;> simp

/-- The three-way comparison `if lt v w then -1 else if lt w v then 1 else 0`
built from any asymmetric, transitive, connected strict order is transitive
in the `≤ 0` direction. -/
theorem cmpIf_trans {α : Type} (lt : α → α → Bool)
    (hasym : ∀ a b, lt a b = true → lt b a = false)
    (htrans : ∀ a b c, lt a b = true → lt b c = true → lt a c = true)
    (hconn : ∀ a b, lt a b = false → lt b a = false → a = b)
    (v w u : α)
    (h1 : (if lt v w then (-1 : Int) else if lt w v then 1 else 0) ≤ 0)
    (h2 : (if lt w u then (-1 : Int) else if lt u w then 1 else 0) ≤ 0) :
    (if lt v u then (-1 : Int) else if lt u v then 1 else 0) ≤ 0 := by
  have e1 : lt v w = true ∨ v = w := by
    by_cases a : lt v w = true
    · exact Or.inl a
    · by_cases b : lt w v = true
      · rw [if_neg (by simp [a]), if_pos (by simp [b])] at h1
        omega
      · exact Or.inr (hconn v w (by simpa using a) (by simpa using b))
  have e2 : lt w u = true ∨ w = u := by
    by_cases a : lt w u = true
    · exact Or.inl a
    · by_cases b : lt u w = true
      · rw [if_neg (by simp [a]), if_pos (by simp [b])] at h2
        omega
      · exact Or.inr (hconn w u (by simpa using a) (by simpa using b))
  have main : lt v u = true ∨ v = u := by
    rcases e1 with e1 | rfl
    · rcases e2 with e2 | rfl
      · exact Or.inl (htrans _ _ _ e1 e2)
      · exact Or.inl e1
    · exact e2
  rcases main with m | rfl
  · rw [if_pos (by simp [m])]
    omega
  · have hirr : lt v v = false := by
      cases hl : lt v v
      · rfl
      · have := hasym _ _ hl
        rw [hl] at this
        simp at this
    rw [if_neg (by simp [hirr]), if_neg (by simp [hirr])]

theorem jsStrLt_asymm (s t : String) (h : jsStrLt s t = true) : jsStrLt t s = false :=
  strLtL_asymm _ _ h

theorem jsStrLt_trans (s t u : String) (h1 : jsStrLt s t = true) (h2 : jsStrLt t u = true) :
    jsStrLt s u = true :=
  strLtL_trans _ _ _ h1 h2

theorem jsStrLt_conn (s t : String) (h1 : jsStrLt s t = false) (h2 : jsStrLt t s = false) :
    s = t := by
  cases s
  cases t
  exact congrArg String.mk (strLtL_eq_of_not_lt _ _ h1 h2)

theorem jsLt_num_num (a b : Int) : jsLt (.num a) (.num b) = decide (a < b) := rfl

theorem jsLt_date_date (a b : Int) : jsLt (.date a) (.date b) = decide (a < b) := rfl

theorem jsLt_str_str (s t : String) : jsLt (.str s) (.str t) = jsStrLt s t := rfl

theorem jsLt_bool_bool (a b : Bool) :
    jsLt (.bool a) (.bool b) = decide ((if a then (1 : Int) else 0) < if b then 1 else 0) := rfl

/-- Transitivity of the typed-value branch for type-compatible typed
values. -/
theorem typedCmp_trans (v w u : JSVal)
    (hvw : kindCompat v w = true) (hwu : kindCompat w u = true)
    (h2v : tier v = 2) (h2w : tier w = 2) (h2u : tier u = 2)
    (h1 : typedCmp v w ≤ 0) (h2 : typedCmp w u ≤ 0) : typedCmp v u ≤ 0 := by
  have intAsym : ∀ a b : Int, decide (a < b) = true → decide (b < a) = false := by
    intro a b h
    simp at h ⊢
    omega
  have intTrans : ∀ a b c : Int,
      decide (a < b) = true → decide (b < c) = true → decide (a < c) = true := by
    intro a b c ha hb
    simp at ha hb ⊢
    omega
  have intConn : ∀ a b : Int, decide (a < b) = false → decide (b < a) = false → a = b := by
    intro a b ha hb
    simp at ha hb
    omega
  unfold typedCmp at h1 h2 ⊢
  cases v <;> cases w <;> cases u <;>
      simp only [tier] at h2v h2w h2u <;>
      try omega
  all_goals simp [kindCompat] at hvw hwu
  -- remaining goals: the four same-kind triples
  case num.num.num a b c =>
    simp only [jsLt_num_num] at h1 h2 ⊢
    exact cmpIf_trans _ intAsym intTrans intConn a b c h1 h2
  case date.date.date a b c =>
    simp only [jsLt_date_date] at h1 h2 ⊢
    exact cmpIf_trans _ intAsym intTrans intConn a b c h1 h2
  case str.str.str a b c =>
    simp only [jsLt_str_str] at h1 h2 ⊢
    exact cmpIf_trans _ jsStrLt_asymm jsStrLt_trans jsStrLt_conn a b c h1 h2
  case bool.bool.bool a b c =>
    have boolAsym : ∀ a b : Bool,
        jsLt (.bool a) (.bool b) = true → jsLt (.bool b) (.bool a) = false := by decide
    have boolTrans : ∀ a b c : Bool, jsLt (.bool a) (.bool b) = true →
        jsLt (.bool b) (.bool c) = true → jsLt (.bool a) (.bool c) = true := by decide
    have boolConn : ∀ a b : Bool,
        jsLt (.bool a) (.bool b) = false → jsLt (.bool b) (.bool a) = false → a = b := by decide
    exact cmpIf_trans (fun a b : Bool => jsLt (.bool a) (.bool b))
      boolAsym boolTrans boolConn a b c h1 h2

theorem kindCompat_symm (v w : JSVal) : kindCompat v w = kindCompat w v := by
  cases v <;> cases w <;> rfl

/-- Transitivity of the `_compareField` value ladder for type-compatible
values. -/
theorem cmpVals_trans (v w u : JSVal)
    (hvw : kindCompat v w = true) (hwu : kindCompat w u = true) (_hvu : kindCompat v u = true)
    (h1 : cmpVals v w ≤ 0) (h2 : cmpVals w u ≤ 0) : cmpVals v u ≤ 0 := by
  rw [cmpVals_eq] at h1 h2 ⊢
  have tv := tier_le_two v
  have tw := tier_le_two w
  have tu := tier_le_two u
  split_ifs at h1 h2 ⊢ <;> try omega
  exact typedCmp_trans v w u hvw hwu (by omega) (by omega) (by omega) h1 h2

/-- A strict comparison through a tie on the left stays strict. -/
theorem cmpVals_le_lt_trans (p q r : JSVal)
    (hpq : kindCompat p q = true) (hqr : kindCompat q r = true) (hpr : kindCompat p r = true)
    (h1 : cmpVals p q ≤ 0) (h2 : cmpVals q r < 0) : cmpVals p r < 0 := by
  have hz := cmpVals_trans p q r hpq hqr hpr h1 (le_of_lt h2)
  rcases lt_or_eq_of_le hz with h | h
  · exact h
  · exfalso
    have hrp : cmpVals r p ≤ 0 := by
      rw [cmpVals_antisymm r p]
      omega
    have := cmpVals_trans r p q (by rw [kindCompat_symm]; exact hpr) hpq
      (by rw [kindCompat_symm]; exact hqr) hrp h1
    rw [cmpVals_antisymm r q] at this
    omega

/-- A strict comparison through a tie on the right stays strict. -/
theorem cmpVals_lt_le_trans (p q r : JSVal)
    (hpq : kindCompat p q = true) (hqr : kindCompat q r = true) (hpr : kindCompat p r = true)
    (h1 : cmpVals p q < 0) (h2 : cmpVals q r ≤ 0) : cmpVals p r < 0 := by
  have hz := cmpVals_trans p q r hpq hqr hpr (le_of_lt h1) h2
  rcases lt_or_eq_of_le hz with h | h
  · exact h
  · exfalso
    have hrp : cmpVals r p ≤ 0 := by
      rw [cmpVals_antisymm r p]
      omega
    have := cmpVals_trans q r p hqr (by rw [kindCompat_symm]; exact hpr)
      (by rw [kindCompat_symm]; exact hpq) h2 hrp
    rw [cmpVals_antisymm q p] at this
    omega

/-- Two ties compose to a tie. -/
theorem cmpVals_eq_trans (p q r : JSVal)
    (hpq : kindCompat p q = true) (hqr : kindCompat q r = true) (hpr : kindCompat p r = true)
    (h1 : cmpVals p q = 0) (h2 : cmpVals q r = 0) : cmpVals p r = 0 := by
  have hz := cmpVals_trans p q r hpq hqr hpr (by omega) (by omega)
  have hz2 := cmpVals_trans r q p (by rw [kindCompat_symm]; exact hqr)
    (by rw [kindCompat_symm]; exact hpq) (by rw [kindCompat_symm]; exact hpr)
    (by rw [cmpVals_antisymm r q]; omega) (by rw [cmpVals_antisymm q p]; omega)
  rw [cmpVals_antisymm r p] at hz2
  omega

/-! ## Order-theoretic properties of the multi-key comparator -/

theorem compareField_antisymm (A B : ItemObject) (p : String) :
    ElementSorter.compareField A B p = -ElementSorter.compareField B A p :=
  cmpVals_antisymm _ _

theorem compareField_vals (A B : ItemObject) (p : String) :
    ElementSorter.compareField A B p = -1 ∨ ElementSorter.compareField A B p = 0 ∨
      ElementSorter.compareField A B p = 1 :=
  cmpVals_vals _ _

/-- `_compare` is antisymmetric for every condition list (no typing
assumptions are needed: it follows from the shape of the ladder and the
asymmetry of the JS relational operators). -/
theorem compareObjects_antisymm (A B : ItemObject) (conds : List Condition) :
    ElementSorter.compareObjects A B conds = -ElementSorter.compareObjects B A conds := by
  induction conds with
  | nil => simp [ElementSorter.compareObjects]
  | cons c cs ih =>
    simp only [ElementSorter.compareObjects]
    have hf := compareField_antisymm A B c.fieldName
    by_cases h0 : ElementSorter.compareField A B c.fieldName = 0
    · have h0r : ElementSorter.compareField B A c.fieldName = 0 := by omega
      simp [h0, h0r, ih]
    · have h0r : ¬ ElementSorter.compareField B A c.fieldName = 0 := by omega
      rw [if_neg h0, if_neg h0r]
      by_cases hasc : c.isAscendingOrder <;> simp [hasc] <;> omega

/-- `_compare` is transitive (in the `≤ 0` direction) on item objects that
are per-field type-compatible. -/
theorem compareObjects_trans (A B C : ItemObject) (conds : List Condition)
    (hab : fieldsCompat conds A B) (hbc : fieldsCompat conds B C)
    (hac : fieldsCompat conds A C)
    (h1 : ElementSorter.compareObjects A B conds ≤ 0)
    (h2 : ElementSorter.compareObjects B C conds ≤ 0) :
    ElementSorter.compareObjects A C conds ≤ 0 := by
  induction conds with
  | nil => simp [ElementSorter.compareObjects]
  | cons c cs ih =>
    have cab : kindCompat (getPropertyValueByNamePath A c.fieldName)
        (getPropertyValueByNamePath B c.fieldName) = true := hab c (by simp)
    have cbc : kindCompat (getPropertyValueByNamePath B c.fieldName)
        (getPropertyValueByNamePath C c.fieldName) = true := hbc c (by simp)
    have cac : kindCompat (getPropertyValueByNamePath A c.fieldName)
        (getPropertyValueByNamePath C c.fieldName) = true := hac c (by simp)
    have tab : fieldsCompat cs A B := fun d hd => hab d (by simp [hd])
    have tbc : fieldsCompat cs B C := fun d hd => hbc d (by simp [hd])
    have tac : fieldsCompat cs A C := fun d hd => hac d (by simp [hd])
    set va := getPropertyValueByNamePath A c.fieldName with hva
    set vb := getPropertyValueByNamePath B c.fieldName with hvb
    set vc := getPropertyValueByNamePath C c.fieldName with hvc
    have exab : ElementSorter.compareField A B c.fieldName = cmpVals va vb := rfl
    have exbc : ElementSorter.compareField B C c.fieldName = cmpVals vb vc := rfl
    have exac : ElementSorter.compareField A C c.fieldName = cmpVals va vc := rfl
    simp only [ElementSorter.compareObjects, exab, exbc, exac] at h1 h2 ⊢
    have vab := cmpVals_vals va vb
    have vbc := cmpVals_vals vb vc
    have vac := cmpVals_vals va vc
    have aab := cmpVals_antisymm va vb
    have abc := cmpVals_antisymm vb vc
    have aac := cmpVals_antisymm va vc
    by_cases hx0 : cmpVals va vb = 0
    · by_cases hy0 : cmpVals vb vc = 0
      · have hz0 : cmpVals va vc = 0 := cmpVals_eq_trans va vb vc cab cbc cac hx0 hy0
        rw [if_pos hx0] at h1
        rw [if_pos hy0] at h2
        rw [if_pos hz0]
        exact ih tab tbc tac h1 h2
      · rw [if_neg hy0] at h2
        by_cases hd : c.isAscendingOrder
        · rw [if_pos hd] at h2
          have hz : cmpVals va vc < 0 :=
            cmpVals_le_lt_trans va vb vc cab cbc cac (by omega) (by omega)
          rw [if_neg (by omega), if_pos hd]
          omega
        · rw [if_neg hd] at h2
          have hcb : cmpVals vc vb < 0 := by
            rw [cmpVals_antisymm vc vb]
            omega
          have hba : cmpVals vb va ≤ 0 := by
            rw [cmpVals_antisymm vb va]
            omega
          have hca : cmpVals vc va < 0 :=
            cmpVals_lt_le_trans vc vb va (by rw [kindCompat_symm]; exact cbc)
              (by rw [kindCompat_symm]; exact cab) (by rw [kindCompat_symm]; exact cac)
              hcb hba
          have hz : 0 < cmpVals va vc := by
            rw [cmpVals_antisymm vc va] at hca
            omega
          rw [if_neg (by omega), if_neg hd]
          omega
    · rw [if_neg hx0] at h1
      by_cases hd : c.isAscendingOrder
      · rw [if_pos hd] at h1
        have hy : cmpVals vb vc ≤ 0 := by
          by_cases hy0 : cmpVals vb vc = 0
          · omega
          · rw [if_neg hy0, if_pos hd] at h2
            omega
        have hz : cmpVals va vc < 0 :=
          cmpVals_lt_le_trans va vb vc cab cbc cac (by omega) hy
        rw [if_neg (by omega), if_pos hd]
        omega
      · rw [if_neg hd] at h1
        have hba : cmpVals vb va < 0 := by
          rw [cmpVals_antisymm vb va]
          omega
        have hcb : cmpVals vc vb ≤ 0 := by
          by_cases hy0 : cmpVals vb vc = 0
          · rw [cmpVals_antisymm vc vb]
            omega
          · rw [if_neg hy0, if_neg hd] at h2
            rw [cmpVals_antisymm vc vb]
            omega
        have hca : cmpVals vc va < 0 :=
          cmpVals_le_lt_trans vc vb va (by rw [kindCompat_symm]; exact cbc)
            (by rw [kindCompat_symm]; exact cab) (by rw [kindCompat_symm]; exact cac)
            hcb hba
        have hz : 0 < cmpVals va vc := by
          rw [cmpVals_antisymm vc va] at hca
          omega
        rw [if_neg (by omega), if_neg hd]
        omega

/-! ## The insertion position and the per-item loop -/

theorem map_insertIdx {α β : Type} (g : α → β) :
    ∀ (l : List α) (i : Nat) (a : α),
      (l.insertIdx i a).map g = (l.map g).insertIdx i (g a)
  | [], 0, a => rfl
  | [], _ + 1, a => rfl
  | _ :: _, 0, a => rfl
  | b :: t, i + 1, a => by
    rw [List.insertIdx_succ_cons, List.map_cons, List.map_cons, List.insertIdx_succ_cons,
      map_insertIdx g t i a]

theorem findPositionFrom_succ (ao : ItemObject) (conds : List Condition) :
    ∀ (items : List ItemObject) (k : Nat),
      ElementSorter.findPositionFrom ao conds items (k + 1) =
        if ElementSorter.findPositionFrom ao conds items k = -1 then -1
        else ElementSorter.findPositionFrom ao conds items k + 1
  | [], k => by simp [ElementSorter.findPositionFrom]
  | it :: rest, k => by
    simp only [ElementSorter.findPositionFrom]
    by_cases h : ElementSorter.compareObjects ao it conds < 0
    · rw [if_pos h, if_pos h, if_neg (by omega)]
      push_cast
      ring
    · rw [if_neg h, if_neg h, findPositionFrom_succ ao conds rest (k + 1)]

theorem findPositionFrom_ge (ao : ItemObject) (conds : List Condition) :
    ∀ (items : List ItemObject) (k : Nat),
      ElementSorter.findPositionFrom ao conds items k = -1 ∨
        (k : Int) ≤ ElementSorter.findPositionFrom ao conds items k
  | [], k => Or.inl rfl
  | it :: rest, k => by
    simp only [ElementSorter.findPositionFrom]
    by_cases h : ElementSorter.compareObjects ao it conds < 0
    · rw [if_pos h]
      omega
    · rw [if_neg h]
      rcases findPositionFrom_ge ao conds rest (k + 1) with h2 | h2
      · exact Or.inl h2
      · right
        omega

/-- Unfold `_findPosition` when the condition list is non-empty. -/
theorem findPosition_eq (conds : List Condition) (hc : conds ≠ [])
    (items : List ItemObject) (ao : ItemObject) :
    ElementSorter.findPosition items ao conds =
      ElementSorter.findPositionFrom ao conds items 0 := by
  unfold ElementSorter.findPosition
  rw [if_neg (by simpa using hc)]

/-- Splicing at `_findPosition` (appending on -1) is exactly the sorted
insertion "before the first strictly greater element". -/
theorem findPosition_insert {α : Type} (key : α → ItemObject) (conds : List Condition)
    (hc : conds ≠ []) (x : α) : ∀ l : List α,
    (if ElementSorter.findPosition (l.map key) (key x) conds = -1 then l ++ [x]
     else l.insertIdx (ElementSorter.findPosition (l.map key) (key x) conds).toNat x) =
    ElementSorter.insertSorted
      (fun p q => ElementSorter.compareObjects (key p) (key q) conds) x l
  | [] => by
    rw [findPosition_eq conds hc]
    simp [ElementSorter.findPositionFrom, ElementSorter.insertSorted]
  | b :: t => by
    have ih := findPosition_insert key conds hc x t
    rw [findPosition_eq conds hc] at ih ⊢
    simp only [List.map_cons, ElementSorter.findPositionFrom, ElementSorter.insertSorted]
    by_cases h : ElementSorter.compareObjects (key x) (key b) conds < 0
    · rw [if_pos h, if_pos h, if_neg (by omega)]
      simp
    · rw [if_neg h, if_neg h, findPositionFrom_succ (key x) conds (t.map key) 0]
      rcases findPositionFrom_ge (key x) conds (t.map key) 0 with h2 | h2
      · rw [h2] at ih ⊢
        rw [if_pos rfl, if_pos rfl]
        rw [if_pos rfl] at ih
        rw [List.cons_append, ih]
      · have hne : ElementSorter.findPositionFrom (key x) conds (List.map key t) 0 ≠ -1 := by
          omega
        rw [if_neg hne, if_neg (by omega)]
        rw [if_neg hne] at ih
        have htn : (ElementSorter.findPositionFrom (key x) conds (List.map key t) 0 + 1).toNat =
            (ElementSorter.findPositionFrom (key x) conds (List.map key t) 0).toNat + 1 := by
          omega
        rw [htn, List.insertIdx_succ_cons, ih]

/-- The spec-side single insertion step coincides with sorted insertion
when there are order fields (and appends otherwise, by definition). -/
theorem insertStepSpec_eq (conds : List Condition) (f : Nat → ItemObject) (a : Nat)
    (hc : conds ≠ []) : ∀ m : List Nat,
    insertStepSpec conds f m a =
      ElementSorter.insertSorted
        (fun p q => ElementSorter.compareObjects (f p) (f q) conds) a m
  | [] => by
    simp [insertStepSpec, insertPositionSpec, hc, ElementSorter.insertSorted]
  | b :: t => by
    have ih := insertStepSpec_eq conds f a hc t
    simp only [insertStepSpec, insertPositionSpec, if_neg hc] at ih ⊢
    rw [List.findIdx?_cons]
    by_cases h : ElementSorter.compareObjects (f a) (f b) conds < 0
    · rw [if_pos (by simpa using h)]
      simp [ElementSorter.insertSorted, h]
    · rw [if_neg (by simpa using h), List.findIdx?_succ]
      simp only [ElementSorter.insertSorted, if_neg h]
      cases hfi : List.findIdx?
          (fun e => decide (ElementSorter.compareObjects (f a) (f e) conds < 0)) t with
      | none =>
        rw [hfi] at ih
        simp only [Option.map_none']
        exact congrArg (List.cons b) ih
      | some j =>
        rw [hfi] at ih
        simp only [Option.map_some']
        rw [List.insertIdx_succ_cons]
        exact congrArg (List.cons b) ih

/-- The mirror component of the per-item loop of `insertElement` is the fold
of the spec-side insertion step, provided the item-object mirror matches the
handle mirror. -/
theorem insertLoop_snd (f : Nat → ItemObject) (conds : List Condition) :
    ∀ (adds c m : List Nat) (items : List ItemObject), items = m.map f →
    (ElementSorter.insertLoop f conds c m items adds).2 =
      adds.foldl (insertStepSpec conds f) m := by
  intro adds
  induction adds with
  | nil =>
    intro c m items h
    simp [ElementSorter.insertLoop]
  | cons a rest ih =>
    intro c m items h
    subst h
    simp only [ElementSorter.insertLoop, List.foldl_cons]
    by_cases hc : conds = []
    · have hp : ElementSorter.findPosition (m.map f) (f a) conds = -1 := by
        simp [ElementSorter.findPosition, hc]
      rw [if_pos hp]
      have hstep : insertStepSpec conds f m a = m ++ [a] := by
        simp [insertStepSpec, insertPositionSpec, hc]
      rw [hstep]
      exact ih _ _ _ (by simp)
    · have hins := findPosition_insert f conds hc a m
      rw [← insertStepSpec_eq conds f a hc m] at hins
      by_cases hp : ElementSorter.findPosition (m.map f) (f a) conds = -1
      · rw [if_pos hp]
        rw [if_pos hp] at hins
        rw [hins]
        refine ih _ _ _ ?_
        rw [← hins]
        simp
      · rw [if_neg hp]
        rw [if_neg hp] at hins
        rw [hins]
        refine ih _ _ _ ?_
        rw [← hins, map_insertIdx]

/-- The mirror array after `insertElement` is the fold of the spec-side
insertion step over the new elements. -/
theorem insertElement_snd (c m adds : List Nat) (conds : List Condition)
    (f : Nat → ItemObject) :
    (ElementSorter.insertElement c m adds conds f).2 =
      adds.foldl (insertStepSpec conds f) m :=
  insertLoop_snd f conds adds c m (m.map f) rfl

/-! ## The sortedness invariant -/

theorem chainLe_cons_cons {α : Type} (le : α → α → Bool) (x y : α) (l : List α) :
    chainLe le (x :: y :: l) = (le x y && chainLe le (y :: l)) := rfl

/-- Sorted insertion preserves the consecutive-pair chain, given only that
the comparator's strict verdicts imply `le` forward and its non-strict
verdicts imply `le` backward (which holds by antisymmetry — no
transitivity or typing assumption is needed). -/
theorem chainLe_insertSorted {α : Type} (cmp : α → α → Int) (le : α → α → Bool)
    (h1 : ∀ x y, cmp x y < 0 → le x y = true)
    (h2 : ∀ x y, ¬ cmp x y < 0 → le y x = true)
    (a : α) : ∀ l : List α, chainLe le l = true →
      chainLe le (ElementSorter.insertSorted cmp a l) = true
  | [], _ => by simp [ElementSorter.insertSorted, chainLe]
  | [b], hl => by
    simp only [ElementSorter.insertSorted]
    by_cases h : cmp a b < 0
    · rw [if_pos h]
      simp [chainLe, h1 a b h]
    · rw [if_neg h]
      simp [ElementSorter.insertSorted, chainLe, h2 a b h]
  | b :: c :: t, hl => by
    rw [chainLe_cons_cons] at hl
    have hbc : le b c = true := by
      cases hx : le b c
      · rw [hx] at hl
        simp at hl
      · rfl
    have ht : chainLe le (c :: t) = true := by
      rw [hbc] at hl
      simpa using hl
    have hrec := chainLe_insertSorted cmp le h1 h2 a (c :: t) ht
    simp only [ElementSorter.insertSorted]
    by_cases h : cmp a b < 0
    · rw [if_pos h, chainLe_cons_cons, h1 a b h]
      rw [chainLe_cons_cons, hbc, ht]
      rfl
    · rw [if_neg h]
      simp only [ElementSorter.insertSorted] at hrec ⊢
      by_cases h3 : cmp a c < 0
      · rw [if_pos h3] at hrec ⊢
        rw [chainLe_cons_cons, h2 a b h, hrec]
        rfl
      · rw [if_neg h3] at hrec ⊢
        rw [chainLe_cons_cons, hbc, hrec]
        rfl

/-- With no order fields every comparison is 0, so any mirror is chain
sorted. -/
theorem sortedMirror_nilConds (f : Nat → ItemObject) :
    ∀ l : List Nat, sortedMirror [] f l = true
  | [] => rfl
  | [_] => rfl
  | a :: b :: t => by
    rw [sortedMirror, chainLe_cons_cons]
    have := sortedMirror_nilConds f (b :: t)
    rw [sortedMirror] at this
    rw [this]
    simp [ElementSorter.compareObjects]

/-- One spec-side insertion step preserves the sortedness invariant. -/
theorem sortedMirror_insertStep (conds : List Condition) (f : Nat → ItemObject)
    (m : List Nat) (a : Nat) (hm : sortedMirror conds f m = true) :
    sortedMirror conds f (insertStepSpec conds f m a) = true := by
  by_cases hc : conds = []
  · subst hc
    exact sortedMirror_nilConds f _
  · rw [insertStepSpec_eq conds f a hc m]
    refine chainLe_insertSorted _ _ ?_ ?_ a m hm
    · intro x y h
      simp only [decide_eq_true_eq]
      omega
    · intro x y h
      simp only [decide_eq_true_eq]
      have := compareObjects_antisymm (f x) (f y) conds
      omega

/-- Folding spec-side insertion steps preserves the sortedness invariant. -/
theorem sortedMirror_foldl (conds : List Condition) (f : Nat → ItemObject) :
    ∀ (adds : List Nat) (m : List Nat), sortedMirror conds f m = true →
      sortedMirror conds f (adds.foldl (insertStepSpec conds f) m) = true
  | [], m, hm => hm
  | a :: rest, m, hm => by
    rw [List.foldl_cons]
    exact sortedMirror_foldl conds f rest _ (sortedMirror_insertStep conds f m a hm)

/-- `insertElement` preserves the sortedness invariant of the mirror. -/
theorem sortedMirror_insertElement (c m adds : List Nat) (conds : List Condition)
    (f : Nat → ItemObject) (hm : sortedMirror conds f m = true) :
    sortedMirror conds f (ElementSorter.insertElement c m adds conds f).2 = true := by
  rw [insertElement_snd]
  exact sortedMirror_foldl conds f adds m hm

/-! ## The embedded stable sort -/

theorem insertSorted_perm {α : Type} (cmp : α → α → Int) (a : α) :
    ∀ l : List α, (ElementSorter.insertSorted cmp a l).Perm (a :: l)
  | [] => List.Perm.refl _
  | b :: t => by
    simp only [ElementSorter.insertSorted]
    by_cases h : cmp a b < 0
    · rw [if_pos h]
    · rw [if_neg h]
      exact ((insertSorted_perm cmp a t).cons b).trans (List.Perm.swap a b t)

theorem sortItems_perm {α : Type} (cmp : α → α → Int) (l : List α) :
    (ElementSorter.sortItems cmp l).Perm l := by
  have aux : ∀ (l acc : List α),
      (l.foldl (fun acc a => ElementSorter.insertSorted cmp a acc) acc).Perm (acc ++ l) := by
    intro l
    induction l with
    | nil => intro acc; simp
    | cons a rest ih =>
      intro acc
      rw [List.foldl_cons]
      refine (ih (ElementSorter.insertSorted cmp a acc)).trans ?_
      refine (List.Perm.append_right rest (insertSorted_perm cmp a acc)).trans ?_
      exact List.perm_middle.symm
  simpa using aux l []

theorem sortItems_length {α : Type} (cmp : α → α → Int) (l : List α) :
    (ElementSorter.sortItems cmp l).length = l.length :=
  (sortItems_perm cmp l).length_eq

/-- Sorting commutes with a projection along which the two comparators
agree on the input's elements. -/
theorem sortItems_map {α β : Type} (g : α → β) (cmp1 : α → α → Int) (cmp2 : β → β → Int) :
    ∀ l : List α, (∀ x ∈ l, ∀ y ∈ l, cmp1 x y = cmp2 (g x) (g y)) →
      (ElementSorter.sortItems cmp1 l).map g = ElementSorter.sortItems cmp2 (l.map g) := by
  have insAux : ∀ (a : α) (acc : List α), (∀ b ∈ acc, cmp1 a b = cmp2 (g a) (g b)) →
      (ElementSorter.insertSorted cmp1 a acc).map g =
        ElementSorter.insertSorted cmp2 (g a) (acc.map g) := by
    intro a acc
    induction acc with
    | nil => intro _; rfl
    | cons b t ih =>
      intro hb
      simp only [ElementSorter.insertSorted, List.map_cons]
      rw [hb b (by simp)]
      by_cases h : cmp2 (g a) (g b) < 0
      · rw [if_pos h, if_pos h]
        rfl
      · rw [if_neg h, if_neg h, List.map_cons, ih (fun x hx => hb x (by simp [hx]))]
  have aux : ∀ (l acc : List α),
      (∀ x ∈ l, ∀ y, y ∈ acc ∨ y ∈ l → cmp1 x y = cmp2 (g x) (g y)) →
      ((l.foldl (fun acc a => ElementSorter.insertSorted cmp1 a acc) acc).map g) =
        (l.map g).foldl (fun acc b => ElementSorter.insertSorted cmp2 b acc) (acc.map g) := by
    intro l
    induction l with
    | nil => intro acc _; rfl
    | cons a rest ih =>
      intro acc hagree
      rw [List.foldl_cons, List.map_cons, List.foldl_cons,
        ← insAux a acc (fun b hb => hagree a (by simp) b (Or.inl hb))]
      refine ih _ ?_
      intro x hx y hy
      rcases hy with hy | hy
      · have : y ∈ a :: acc := (insertSorted_perm cmp1 a acc).mem_iff.mp hy
        rcases List.mem_cons.mp this with rfl | hy2
        · exact hagree x (by simp [hx]) y (Or.inr (by simp))
        · exact hagree x (by simp [hx]) y (Or.inl hy2)
      · exact hagree x (by simp [hx]) y (Or.inr (by simp [hy]))
  intro l h
  exact aux l [] (fun x hx y hy => h x hx y (by
    rcases hy with hy | hy
    · exact absurd hy (List.not_mem_nil y)
    · exact hy))

/-- The stable sort output is chain sorted for any antisymmetric
comparator. -/
theorem sortItems_chain {α : Type} (cmp : α → α → Int)
    (hanti : ∀ x y, cmp x y = -cmp y x) (l : List α) :
    chainLe (fun x y => decide (cmp x y ≤ 0)) (ElementSorter.sortItems cmp l) = true := by
  have aux : ∀ (l acc : List α), chainLe (fun x y => decide (cmp x y ≤ 0)) acc = true →
      chainLe (fun x y => decide (cmp x y ≤ 0))
        (l.foldl (fun acc a => ElementSorter.insertSorted cmp a acc) acc) = true := by
    intro l
    induction l with
    | nil => intro acc h; exact h
    | cons a rest ih =>
      intro acc h
      rw [List.foldl_cons]
      refine ih _ ?_
      refine chainLe_insertSorted cmp _ ?_ ?_ a acc h
      · intro x y hxy
        simp only [decide_eq_true_eq]
        omega
      · intro x y hxy
        simp only [decide_eq_true_eq]
        have := hanti x y
        omega
  exact aux l [] rfl

/-! ## The backward move pass of `sortElements` -/

theorem insertBeforeRef_append (e r : Nat) :
    ∀ (l1 l2 : List Nat), r ∉ l1 →
      insertBeforeRef (l1 ++ r :: l2) e r = l1 ++ e :: r :: l2
  | [], l2, _ => by simp [insertBeforeRef]
  | x :: t, l2, h => by
    have hx : x ≠ r := by
      intro hx
      exact h (by simp [hx])
    simp only [List.cons_append, insertBeforeRef, if_neg hx]
    exact congrArg (List.cons x) (insertBeforeRef_append e r t l2 (fun ht => h (by simp [ht])))

/-- After the first move, each later move detaches its element from the
untouched prefix and lands it immediately before the previously moved
element: processing the list `ms` against `cpre ++ prev :: csuf` produces
the untouched remainder followed by the moved block in reverse processing
order. -/
theorem runMoves_block :
    ∀ (ms cpre csuf : List Nat) (prev : Nat),
      (cpre ++ prev :: csuf).Nodup → ms.Nodup → (∀ x ∈ ms, x ∈ cpre) →
      ElementSorter.runMoves (cpre ++ prev :: csuf) (ms.zip (some prev :: ms.map some)) =
        (cpre.diff ms) ++ ms.reverse ++ prev :: csuf
  | [], cpre, csuf, prev, _, _, _ => by simp [ElementSorter.runMoves]
  | m :: rest, cpre, csuf, prev, hnd, hms, hsub => by
    have hmc : m ∈ cpre := hsub m (by simp)
    have hprev : prev ∉ cpre := by
      intro hmem
      have := (List.nodup_append.mp hnd).2.2
      exact this hmem (by simp)
    have hmnotsuf : m ∉ prev :: csuf := by
      intro hmem
      have := (List.nodup_append.mp hnd).2.2
      exact this hmc hmem
    simp only [List.map_cons, List.zip_cons_cons, ElementSorter.runMoves, List.foldl_cons]
    have hero : (cpre ++ prev :: csuf).erase m = cpre.erase m ++ prev :: csuf :=
      List.erase_append_left _ hmc
    have hstep : insertBefore (cpre ++ prev :: csuf) m (some prev) =
        (cpre.erase m) ++ m :: prev :: csuf := by
      unfold insertBefore
      rw [hero]
      exact insertBeforeRef_append m prev (cpre.erase m) csuf
        (fun hmem => hprev (List.mem_of_mem_erase hmem))
    rw [hstep]
    have hperm : ((cpre.erase m) ++ m :: prev :: csuf).Perm (cpre ++ prev :: csuf) :=
      List.perm_middle.trans (List.Perm.append_right _ (List.perm_cons_erase hmc).symm)
    have hsub2 : ∀ x ∈ rest, x ∈ cpre.erase m := by
      intro x hx
      have hxm : x ≠ m := by
        intro hxe
        exact (List.nodup_cons.mp hms).1 (hxe ▸ hx)
      exact (List.mem_erase_of_ne hxm).mpr (hsub x (by simp [hx]))
    have ihh := runMoves_block rest (cpre.erase m) (prev :: csuf) m (hperm.symm.nodup hnd)
      (List.nodup_cons.mp hms).2 hsub2
    unfold ElementSorter.runMoves at ihh
    rw [ihh]
    simp [List.diff_cons, List.reverse_cons, List.append_assoc]

/-- The full backward pass: the first move appends its element at the end,
each later move lands immediately before the previous one; the result is
the untouched remainder followed by the moved elements in reverse
processing order. -/
theorem runMoves_all (ms c : List Nat) (hc : c.Nodup) (hms : ms.Nodup)
    (hsub : ∀ x ∈ ms, x ∈ c) :
    ElementSorter.runMoves c (ms.zip (none :: ms.map some)) = c.diff ms ++ ms.reverse := by
  cases ms with
  | nil => simp [ElementSorter.runMoves]
  | cons m rest =>
    have hmc : m ∈ c := hsub m (by simp)
    simp only [List.map_cons, List.zip_cons_cons, ElementSorter.runMoves, List.foldl_cons]
    have hstep : insertBefore c m none = c.erase m ++ m :: [] := by
      unfold insertBefore
      rfl
    rw [hstep]
    have hperm : c.Perm (c.erase m ++ m :: []) := by
      have hmid := @List.perm_middle Nat m (c.erase m) []
      refine (List.perm_cons_erase hmc).trans ?_
      simpa using hmid.symm
    have hsub2 : ∀ x ∈ rest, x ∈ c.erase m := by
      intro x hx
      have hxm : x ≠ m := by
        intro hxe
        exact (List.nodup_cons.mp hms).1 (hxe ▸ hx)
      exact (List.mem_erase_of_ne hxm).mpr (hsub x (by simp [hx]))
    have ihh := runMoves_block rest (c.erase m) [] m (hperm.nodup hc)
      (List.nodup_cons.mp hms).2 hsub2
    unfold ElementSorter.runMoves at ihh
    rw [ihh]
    simp [List.diff_cons, List.reverse_cons, List.append_assoc]

/-! ## Invisibility of the `"__index"` tag to non-tag order fields -/

theorem lookupField_setField_ne (name s : String) (t : JSTree) (hne : s ≠ name) :
    ∀ o : List (String × JSTree), lookupField (setField o name t) s = lookupField o s
  | [] => by
    simp only [setField, lookupField]
    rw [if_neg (fun h => hne h.symm)]
  | (k, v) :: rest => by
    simp only [setField]
    by_cases hk : k = name
    · rw [if_pos hk]
      simp only [lookupField]
      rw [if_neg (fun h : k = s => hne (h ▸ hk)), if_neg (fun h : k = s => hne (h ▸ hk))]
    · rw [if_neg hk]
      simp only [lookupField]
      by_cases hs : k = s
      · rw [if_pos hs, if_pos hs]
      · rw [if_neg hs, if_neg hs]
        exact lookupField_setField_ne name s t hne rest

theorem resolveSegs_setField (o : ItemObject) (t : JSTree) :
    ∀ segs : List String, (match segs with | s :: _ => s ≠ "__index" | [] => True) →
      resolveSegs (.obj (setField o "__index" t)) segs = resolveSegs (.obj o) segs
  | [], _ => rfl
  | s :: rest, hs => by
    simp only [resolveSegs]
    rw [lookupField_setField_ne "__index" s t hs o]

/-- Resolving a name path that does not read the `"__index"` tag is
unaffected by tagging the item object. -/
theorem getProp_setField (o : ItemObject) (t : JSTree) (p : String)
    (hp : readsIndexTag p = false) :
    getPropertyValueByNamePath (setField o "__index" t) p =
      getPropertyValueByNamePath o p := by
  unfold getPropertyValueByNamePath
  refine resolveSegs_setField o t (splitChar '.' p) ?_
  unfold readsIndexTag at hp
  cases hsp : splitChar '.' p with
  | nil => trivial
  | cons s rest =>
    rw [hsp] at hp
    simpa using hp

theorem compareField_setField (A B : ItemObject) (t1 t2 : JSTree) (p : String)
    (hp : readsIndexTag p = false) :
    ElementSorter.compareField (setField A "__index" t1) (setField B "__index" t2) p =
      ElementSorter.compareField A B p := by
  unfold ElementSorter.compareField
  rw [getProp_setField A t1 p hp, getProp_setField B t2 p hp]

/-- `_compare` does not see the `"__index"` tag when no condition's name
path reads it. -/
theorem compareObjects_setField (conds : List Condition) (A B : ItemObject) (t1 t2 : JSTree)
    (htag : ∀ cd ∈ conds, readsIndexTag cd.fieldName = false) :
    ElementSorter.compareObjects (setField A "__index" t1) (setField B "__index" t2) conds =
      ElementSorter.compareObjects A B conds := by
  induction conds with
  | nil => rfl
  | cons cd rest ih =>
    simp only [ElementSorter.compareObjects]
    rw [compareField_setField A B t1 t2 cd.fieldName (htag cd (by simp))]
    rw [ih (fun d hd => htag d (by simp [hd]))]

/-! ## The target permutation of `sortElements` -/

theorem targetElementIndexies_perm (es : List Nat) (conds : List Condition)
    (f : Nat → ItemObject) :
    (ElementSorter.targetElementIndexies es conds f).Perm (List.range es.length) := by
  unfold ElementSorter.targetElementIndexies
  have hp := (sortItems_perm (fun a b : ItemObject × Nat => ElementSorter.compareObjects a.1 b.1 conds)
    (ElementSorter.taggedItems es f)).map (·.2)
  refine hp.trans ?_
  unfold ElementSorter.taggedItems
  rw [List.map_map]
  rw [show ((fun x : ItemObject × Nat => x.2) ∘ fun p : Nat × Nat =>
      (setField (f p.2) "__index" (.val (.num (p.1 : Int))), p.1)) =
    (Prod.fst : Nat × Nat → Nat) from rfl]
  rw [List.enum_map_fst]

theorem targetElementIndexies_length (es : List Nat) (conds : List Condition)
    (f : Nat → ItemObject) :
    (ElementSorter.targetElementIndexies es conds f).length = es.length := by
  have := (targetElementIndexies_perm es conds f).length_eq
  simpa using this

theorem targetElementIndexies_lt (es : List Nat) (conds : List Condition)
    (f : Nat → ItemObject) :
    ∀ t ∈ ElementSorter.targetElementIndexies es conds f, t < es.length := by
  intro t ht
  have := (targetElementIndexies_perm es conds f).mem_iff.mp ht
  simpa using this

theorem targetElementIndexies_nodup (es : List Nat) (conds : List Condition)
    (f : Nat → ItemObject) :
    (ElementSorter.targetElementIndexies es conds f).Nodup :=
  (targetElementIndexies_perm es conds f).symm.nodup (List.nodup_range _)

/-- Reading the target permutation back through the original mirror yields
precisely the reference stable sort of the handles, provided no order field
reads the `"__index"` tag (otherwise the tagged and untagged comparisons
genuinely differ). -/
theorem targetElementIndexies_map (es : List Nat) (conds : List Condition)
    (f : Nat → ItemObject) (htag : ∀ cd ∈ conds, readsIndexTag cd.fieldName = false) :
    (ElementSorter.targetElementIndexies es conds f).map (fun i => es.getD i 0) =
      referenceStableSort es conds f := by
  unfold ElementSorter.targetElementIndexies referenceStableSort
  rw [List.map_map]
  have hmem : ∀ x ∈ ElementSorter.taggedItems es f,
      x.1 = setField (f (es.getD x.2 0)) "__index" (.val (.num (x.2 : Int))) := by
    intro x hx
    unfold ElementSorter.taggedItems at hx
    rcases List.mem_map.mp hx with ⟨p, hp, rfl⟩
    have hget : es[p.1]? = some p.2 := List.mem_enum_iff_getElem?.mp hp
    rcases List.getElem?_eq_some.mp hget with ⟨hlt, hval⟩
    have heq : es.getD p.1 0 = p.2 := by
      rw [List.getD_eq_getElem es 0 hlt, hval]
    rw [heq]
  have hmap := sortItems_map (fun x : ItemObject × Nat => es.getD x.2 0)
    (fun a b : ItemObject × Nat => ElementSorter.compareObjects a.1 b.1 conds)
    (fun a b : Nat => ElementSorter.compareObjects (f a) (f b) conds)
    (ElementSorter.taggedItems es f)
    (by
      intro x hx y hy
      dsimp only
      rw [hmem x hx, hmem y hy]
      exact compareObjects_setField conds _ _ _ _ htag)
  rw [show ((fun i => es.getD i 0) ∘ fun x : ItemObject × Nat => x.2) =
    (fun x : ItemObject × Nat => es.getD x.2 0) from rfl]
  rw [hmap]
  congr 1
  unfold ElementSorter.taggedItems
  rw [List.map_map]
  refine List.ext_getElem (by simp [List.enum_length]) ?_
  intro n h1 h2
  simp only [List.getElem_map, List.getElem_enum]
  exact List.getD_eq_getElem es 0 h2

/-- The container after `sortElements` is exactly the reference stable sort
of the mirror's handles, for any initial container order that is a
permutation of the (duplicate-free) mirror, provided no order field reads
the internal `"__index"` tag. -/
theorem sortElements_container (c es : List Nat) (conds : List Condition)
    (f : Nat → ItemObject) (hperm : c.Perm es) (hnd : es.Nodup)
    (htag : ∀ cd ∈ conds, readsIndexTag cd.fieldName = false) :
    (ElementSorter.sortElements c es conds f).1 = referenceStableSort es conds f := by
  simp only [ElementSorter.sortElements, ElementSorter.resortMoves]
  cases hT : ElementSorter.targetElementIndexies es conds f with
  | nil =>
    have hlen : es.length = 0 := by
      have := targetElementIndexies_length es conds f
      rw [hT] at this
      simpa using this.symm
    have hes : es = [] := List.length_eq_zero.mp hlen
    subst hes
    have hc : c = [] := by
      have : c.Perm [] := hperm
      simpa using this.eq_nil
    subst hc
    simp [ElementSorter.runMoves, referenceStableSort, ElementSorter.sortItems]
  | cons t0 ttail =>
    have hTfull := hT
    have hTnodup : (t0 :: ttail).Nodup := by
      rw [← hT]
      exact targetElementIndexies_nodup es conds f
    have hTlt : ∀ t ∈ t0 :: ttail, t < es.length := by
      rw [← hT]
      exact targetElementIndexies_lt es conds f
    have hTmap : (t0 :: ttail).map (fun i => es.getD i 0) = referenceStableSort es conds f := by
      rw [← hT]
      exact targetElementIndexies_map es conds f htag
    have hinj : ∀ i ∈ t0 :: ttail, ∀ j ∈ t0 :: ttail,
        es.getD i 0 = es.getD j 0 → i = j := by
      intro i hi j hj hij
      have hi2 := hTlt i hi
      have hj2 := hTlt j hj
      rw [List.getD_eq_getElem es 0 hi2, List.getD_eq_getElem es 0 hj2] at hij
      exact (hnd.getElem_inj_iff).mp hij
    simp only [List.drop_succ_cons, List.drop_zero]
    set g0 : Nat → Nat := fun i => es.getD i 0 with hg0
    set ms : List Nat := (ttail.reverse).map g0 with hms
    have hmsnodup : ms.Nodup := by
      rw [hms]
      refine List.Nodup.map_on ?_ (List.nodup_reverse.mpr (List.nodup_cons.mp hTnodup).2)
      intro i hi j hj
      exact hinj i (by simp at hi; simp [hi]) j (by simp at hj; simp [hj])
    have hmssub : ∀ x ∈ ms, x ∈ c := by
      intro x hx
      rw [hms] at hx
      rcases List.mem_map.mp hx with ⟨i, hi, rfl⟩
      have hilt : i < es.length := hTlt i (by simp at hi; simp [hi])
      rw [hperm.mem_iff]
      show es.getD i 0 ∈ es
      rw [List.getD_eq_getElem es 0 hilt]
      exact List.getElem_mem hilt
    have hrun := runMoves_all ms c (hperm.symm.nodup hnd) hmsnodup hmssub
    rw [hrun]
    have hmsrev : ms.reverse = ttail.map g0 := by
      rw [hms, List.map_reverse, List.reverse_reverse]
    have hdiff : c.diff ms = [g0 t0] := by
      have hcperm : c.Perm (g0 t0 :: ttail.map g0) := by
        refine (hperm.trans ?_)
        have hrefperm := sortItems_perm
          (fun a b : Nat => ElementSorter.compareObjects (f a) (f b) conds) es
        have : es.Perm (referenceStableSort es conds f) := by
          unfold referenceStableSort
          exact hrefperm.symm
        refine this.trans ?_
        rw [← hTmap]
        simp
      rw [List.Nodup.diff_eq_filter (hperm.symm.nodup hnd)]
      have hfil := List.Perm.filter (fun x => decide (x ∉ ms)) hcperm
      have hfil2 : List.filter (fun x => decide (x ∉ ms)) (g0 t0 :: ttail.map g0) = [g0 t0] := by
        rw [List.filter_cons]
        have ht0 : g0 t0 ∉ ms := by
          rw [hms]
          intro hmem
          rcases List.mem_map.mp hmem with ⟨j, hj, hje⟩
          have hj2 : j ∈ ttail := List.mem_reverse.mp hj
          have : j = t0 := hinj j (by simp [hj2]) t0 (by simp) hje
          subst this
          exact (List.nodup_cons.mp hTnodup).1 hj2
        rw [if_pos (by simpa using ht0)]
        have : List.filter (fun x => decide (x ∉ ms)) (ttail.map g0) = [] := by
          rw [List.filter_eq_nil_iff]
          intro x hx
          rcases List.mem_map.mp hx with ⟨j, hj, rfl⟩
          have : g0 j ∈ ms := by
            rw [hms]
            exact List.mem_map.mpr ⟨j, List.mem_reverse.mpr hj, rfl⟩
          simpa using this
        rw [this]
      rw [hfil2] at hfil
      exact List.perm_singleton.mp hfil
    rw [hdiff, hmsrev, ← hTmap]
    simp

/-! ## Error propagation in `insertElement` -/

theorem mapItemObjects_ok (g : Nat → ItemObject) (p : Nat → Bool) :
    ∀ l : List Nat, (∀ e ∈ l, p e = false) →
      ElementSorter.mapItemObjects (fun h => if p h then .error () else .ok (g h)) l =
        .ok (l.map g)
  | [], _ => rfl
  | e :: t, h => by
    have he : p e = false := h e (by simp)
    simp only [ElementSorter.mapItemObjects, he, Bool.false_eq_true, if_false]
    rw [mapItemObjects_ok g p t (fun x hx => h x (by simp [hx]))]
    rfl

theorem insertLoopExc_throw (g : Nat → ItemObject) (p : Nat → Bool) (conds : List Condition) :
    ∀ (adds : List Nat) (k : Nat) (c m : List Nat) (items : List ItemObject),
      k < adds.length → (∀ i, i < k → p (adds.getD i 0) = false) →
      p (adds.getD k 0) = true →
      ElementSorter.insertLoopExc (fun h => if p h then .error () else .ok (g h)) conds
          c m items adds =
        (ElementSorter.insertLoop g conds c m items (adds.take k), true) := by
  intro adds
  induction adds with
  | nil =>
    intro k c m items hk
    simp at hk
  | cons a rest ih =>
    intro k c m items hk hpre hthrow
    cases k with
    | zero =>
      have ha : p a = true := by simpa using hthrow
      simp only [ElementSorter.insertLoopExc, ha, if_true, List.take_zero,
        ElementSorter.insertLoop]
    | succ k =>
      have ha : p a = false := by simpa using hpre 0 (by omega)
      simp only [ElementSorter.insertLoopExc, ha, Bool.false_eq_true, if_false,
        List.take_succ_cons, ElementSorter.insertLoop]
      by_cases hp : ElementSorter.findPosition items (g a) conds = -1
      · rw [if_pos hp, if_pos hp]
        exact ih k _ _ _ (by simpa using hk) (fun i hi => by simpa using hpre (i + 1) (by omega))
          (by simpa using hthrow)
      · rw [if_neg hp, if_neg hp]
        exact ih k _ _ _ (by simpa using hk) (fun i hi => by simpa using hpre (i + 1) (by omega))
          (by simpa using hthrow)

/-! ## First-index characterisation and pairwise consequences of the chain -/

theorem findIdx?_some_spec {α : Type} (q : α → Bool) (d : α) :
    ∀ (l : List α) (i : Nat), l.findIdx? q = some i →
      i < l.length ∧ q (l.getD i d) = true ∧ ∀ j, j < i → q (l.getD j d) = false
  | [], i, h => by simp [List.findIdx?_nil] at h
  | x :: t, i, h => by
    rw [List.findIdx?_cons] at h
    by_cases hx : q x = true
    · rw [if_pos hx] at h
      have hi : i = 0 := by
        cases h
        rfl
      subst hi
      exact ⟨by simp, by simpa using hx, fun j hj => absurd hj (by omega)⟩
    · rw [if_neg hx, List.findIdx?_succ] at h
      cases hfi : t.findIdx? q with
      | none =>
        rw [hfi] at h
        simp at h
      | some j =>
        rw [hfi] at h
        simp only [Option.map_some'] at h
        have hij : i = j + 1 := by
          cases h
          rfl
        subst hij
        have hrec := findIdx?_some_spec q d t j hfi
        refine ⟨by simp; omega, by simpa [List.getD_cons_succ] using hrec.2.1, ?_⟩
        intro j2 hj2
        cases j2 with
        | zero => simpa using hx
        | succ j3 =>
          rw [List.getD_cons_succ]
          exact hrec.2.2 j3 (by omega)

theorem chainLe_consec {α : Type} (le : α → α → Bool) (d : α) :
    ∀ (l : List α) (i : Nat), chainLe le l = true → i + 1 < l.length →
      le (l.getD i d) (l.getD (i + 1) d) = true
  | [], i, _, h => by simp at h
  | [x], i, _, h => by simp at h
  | x :: y :: t, 0, hch, _ => by
    rw [chainLe_cons_cons, Bool.and_eq_true] at hch
    simpa using hch.1
  | x :: y :: t, i + 1, hch, h => by
    rw [chainLe_cons_cons, Bool.and_eq_true] at hch
    rw [List.getD_cons_succ, List.getD_cons_succ]
    exact chainLe_consec le d (y :: t) i hch.2 (by
      simp at h ⊢
      omega)

theorem chainLe_pairwise {α : Type} (le : α → α → Bool) (d : α) (l : List α)
    (hch : chainLe le l = true)
    (htrans : ∀ x y z, x ∈ l → y ∈ l → z ∈ l →
      le x y = true → le y z = true → le x z = true) :
    ∀ i j, i < j → j < l.length → le (l.getD i d) (l.getD j d) = true := by
  intro i j
  induction j with
  | zero => omega
  | succ j ih =>
    intro hij hlen
    have hmem : ∀ n, n < l.length → l.getD n d ∈ l := by
      intro n hn
      rw [List.getD_eq_getElem l d hn]
      exact List.getElem_mem hn
    by_cases he : i = j
    · subst he
      exact chainLe_consec le d l i hch hlen
    · have h1 := ih (by omega) (by omega)
      have h2 := chainLe_consec le d l j hch hlen
      exact htrans _ _ _ (hmem i (by omega)) (hmem j (by omega)) (hmem (j + 1) hlen) h1 h2

theorem fieldsCompat_symm (conds : List Condition) (A B : ItemObject)
    (h : fieldsCompat conds A B) : fieldsCompat conds B A := by
  intro c hc
  rw [kindCompat_symm]
  exact h c hc

theorem wellTypedB_fieldsCompat (conds : List Condition) (f : Nat → ItemObject)
    (hs : List Nat) (h : wellTypedB conds f hs = true) :
    ∀ x ∈ hs, ∀ y ∈ hs, fieldsCompat conds (f x) (f y) := by
  intro x hx y hy c hc
  simp only [wellTypedB, List.all_eq_true] at h
  exact h c hc x hx y hy

/-- A strict comparison through a tie stays strict at the `_compare`
level. -/
theorem compareObjects_lt_le_trans (A B C : ItemObject) (conds : List Condition)
    (hab : fieldsCompat conds A B) (hbc : fieldsCompat conds B C)
    (hac : fieldsCompat conds A C)
    (h1 : ElementSorter.compareObjects A B conds < 0)
    (h2 : ElementSorter.compareObjects B C conds ≤ 0) :
    ElementSorter.compareObjects A C conds < 0 := by
  have hz := compareObjects_trans A B C conds hab hbc hac (le_of_lt h1) h2
  rcases lt_or_eq_of_le hz with h | h
  · exact h
  · exfalso
    have hba : 0 < ElementSorter.compareObjects B A conds := by
      rw [compareObjects_antisymm B A]
      omega
    have hca : ElementSorter.compareObjects C A conds ≤ 0 := by
      rw [compareObjects_antisymm C A]
      omega
    have := compareObjects_trans B C A conds hbc (fieldsCompat_symm conds A C hac)
      (fieldsCompat_symm conds A B hab) h2 hca
    omega

/-! ## The claims -/

/-- C1 (counterexample): the universally quantified claim fails for an
order field that reads `"__index"` — the property `sortElements` itself
stores on every item object (line 269) to record the original index.
Sorting two tied-under-their-own-data items by `"__index"` descending
makes the program reverse the container, while the reference stable sort
of the mapped (untagged) item objects is the identity. -/
theorem claim_C1_resort_correctness_counterexample :
    ([0, 1] : List Nat).Perm [0, 1] ∧ ([0, 1] : List Nat).Nodup ∧
    (ElementSorter.sortElements [0, 1] [0, 1] [⟨"__index", false⟩] valueMap).1 = [1, 0] ∧
    referenceStableSort [0, 1] [⟨"__index", false⟩] valueMap = [0, 1] :=
  ⟨by decide, by decide, by decide, by decide⟩

/-- C1 (amended): for every container, mirror array, mapping function and
condition list *no field of which reads the internal `"__index"` tag*,
after `sortElements` returns, the handle order of the container equals the
order produced by a reference stable sort of the mapped item objects under
the multi-key comparator, for any initial permutation of the
(duplicate-free) handles. -/
theorem claim_C1_resort_correctness (c es : List Nat) (conds : List Condition)
    (f : Nat → ItemObject) (hperm : c.Perm es) (hnd : es.Nodup)
    (htag : ∀ cd ∈ conds, readsIndexTag cd.fieldName = false) :
    (ElementSorter.sortElements c es conds f).1 = referenceStableSort es conds f :=
  sortElements_container c es conds f hperm hnd htag

theorem claim_C1_resort_correctness_witness :
    ([2, 0, 1] : List Nat).Perm [0, 1, 2] ∧ ([0, 1, 2] : List Nat).Nodup ∧
    (∀ cd ∈ ([⟨"type", true⟩, ⟨"id", true⟩] : List Condition),
      readsIndexTag cd.fieldName = false) ∧
    (ElementSorter.sortElements [2, 0, 1] [0, 1, 2]
        [⟨"type", true⟩, ⟨"id", true⟩] sampleMap).1 =
      referenceStableSort [0, 1, 2] [⟨"type", true⟩, ⟨"id", true⟩] sampleMap :=
  ⟨by decide, by decide, by decide,
    claim_C1_resort_correctness [2, 0, 1] [0, 1, 2] [⟨"type", true⟩, ⟨"id", true⟩] sampleMap
      (by decide) (by decide) (by decide)⟩

/-- C2: for every fixed condition list and every sequence of
`insertElement` calls starting from an empty mirror array, the mirror,
mapped through the item-object function and compared pairwise at
consecutive indices with the multi-key comparator, never yields a positive
result. -/
theorem claim_C2_sortedness_invariant (conds : List Condition) (f : Nat → ItemObject)
    (batches : List (List Nat)) :
    sortedMirror conds f (applyInsertBatches conds f ([], []) batches).2 = true := by
  suffices h : ∀ (batches : List (List Nat)) (st : List Nat × List Nat),
      sortedMirror conds f st.2 = true →
      sortedMirror conds f (applyInsertBatches conds f st batches).2 = true from
    h batches ([], []) rfl
  intro batches
  induction batches with
  | nil => exact fun st h => h
  | cons b bs ih =>
    intro st h
    simp only [applyInsertBatches, List.foldl_cons]
    have hstep := sortedMirror_insertElement st.1 st.2 b conds f h
    exact ih _ hstep

/-- C3: for every `insertElement` call whose mirror satisfies the
sortedness precondition, each new handle is spliced at the first index
whose existing item compares strictly above the new item, and appended at
the end when no such index exists or when the condition list is empty (the
spec-side step `insertStepSpec` is exactly this rule, applied per new
element in arrival order). -/
theorem claim_C3_insertion_position (c m adds : List Nat) (conds : List Condition)
    (f : Nat → ItemObject) (hm : sortedMirror conds f m = true) :
    (ElementSorter.insertElement c m adds conds f).2 =
      adds.foldl (insertStepSpec conds f) m :=
  insertElement_snd c m adds conds f

theorem claim_C3_insertion_position_witness :
    sortedMirror [⟨"id", true⟩] sampleMap [2, 0] = true ∧
    (ElementSorter.insertElement [2, 0] [2, 0] [3, 5] [⟨"id", true⟩] sampleMap).2 =
      [3, 5].foldl (insertStepSpec [⟨"id", true⟩] sampleMap) [2, 0] :=
  ⟨by decide,
    claim_C3_insertion_position [2, 0] [2, 0] [3, 5] [⟨"id", true⟩] sampleMap (by decide)⟩

/-- C4: `sortElements` on `n` handles issues exactly `n − 1` container
`insertBefore` moves (its move list is `resortMoves`), regardless of the
distance between initial and target permutations, and the element at the
first position of the target permutation is never the moved element of any
move. -/
theorem claim_C4_minimal_moves (es : List Nat) (conds : List Condition)
    (f : Nat → ItemObject) :
    (ElementSorter.resortMoves es
        (ElementSorter.targetElementIndexies es conds f)).length = es.length - 1 ∧
    (es.Nodup → 0 < es.length →
      ∀ mv ∈ ElementSorter.resortMoves es (ElementSorter.targetElementIndexies es conds f),
        mv.1 ≠ es.getD ((ElementSorter.targetElementIndexies es conds f).getD 0 0) 0) := by
  have hTlen := targetElementIndexies_length es conds f
  constructor
  · simp only [ElementSorter.resortMoves, List.length_zip, List.length_map,
      List.length_reverse, List.length_drop, List.length_cons]
    omega
  · intro hnd hlen mv hmv
    cases hT : ElementSorter.targetElementIndexies es conds f with
    | nil =>
      rw [hT] at hTlen
      simp at hTlen
      omega
    | cons t0 ttail =>
      have hTnodup : (t0 :: ttail).Nodup := by
        rw [← hT]
        exact targetElementIndexies_nodup es conds f
      have hTlt : ∀ t ∈ t0 :: ttail, t < es.length := by
        rw [← hT]
        exact targetElementIndexies_lt es conds f
      rw [hT] at hmv
      simp only [ElementSorter.resortMoves, List.drop_succ_cons, List.drop_zero] at hmv
      simp only [List.getD_cons_zero]
      have hx : mv.1 ∈ (ttail.reverse).map (fun i => es.getD i 0) := by
        rcases mv with ⟨x, r⟩
        exact (List.of_mem_zip hmv).1
      rcases List.mem_map.mp hx with ⟨j, hj, hje⟩
      have hj2 : j ∈ ttail := List.mem_reverse.mp hj
      rw [← hje]
      intro heq
      have hjlt := hTlt j (by simp [hj2])
      have ht0lt := hTlt t0 (by simp)
      rw [List.getD_eq_getElem es 0 hjlt, List.getD_eq_getElem es 0 ht0lt] at heq
      have : j = t0 := (hnd.getElem_inj_iff).mp heq
      subst this
      exact (List.nodup_cons.mp hTnodup).1 hj2

theorem claim_C4_minimal_moves_witness :
    ([0, 1, 2] : List Nat).Nodup ∧ 0 < ([0, 1, 2] : List Nat).length ∧
    (ElementSorter.resortMoves [0, 1, 2]
        (ElementSorter.targetElementIndexies [0, 1, 2] [⟨"id", false⟩] sampleMap)).length = 2 ∧
    (∀ mv ∈ ElementSorter.resortMoves [0, 1, 2]
        (ElementSorter.targetElementIndexies [0, 1, 2] [⟨"id", false⟩] sampleMap),
      mv.1 ≠ ([0, 1, 2] : List Nat).getD
        ((ElementSorter.targetElementIndexies [0, 1, 2] [⟨"id", false⟩] sampleMap).getD 0 0) 0) :=
  ⟨by decide, by decide,
    (claim_C4_minimal_moves [0, 1, 2] [⟨"id", false⟩] sampleMap).1,
    (claim_C4_minimal_moves [0, 1, 2] [⟨"id", false⟩] sampleMap).2 (by decide) (by decide)⟩

/-- C5 (counterexample): `sortElements` never writes the caller's mirror
array: on a two-element container sorted into `[1, 0]`, the returned mirror
is still the stale `[0, 1]`, which is not sorted under the active
conditions, so the claim that the mirror "has been reassigned/rebuilt" by
the call itself is false — rebuilding it is the caller's obligation. -/
theorem claim_C5_mirror_counterexample :
    (ElementSorter.sortElements [0, 1] [0, 1] [⟨"v", true⟩] staleMap).2 = [0, 1] ∧
    (ElementSorter.sortElements [0, 1] [0, 1] [⟨"v", true⟩] staleMap).1 = [1, 0] ∧
    sortedMirror [⟨"v", true⟩] staleMap
      (ElementSorter.sortElements [0, 1] [0, 1] [⟨"v", true⟩] staleMap).2 = false :=
  ⟨by decide, by decide, by decide⟩

/-- C5 (amended): `sortElements` returns the mirror argument unchanged (the
source never writes `lastElements`); and when no order field reads the
internal `"__index"` tag, the new *container* order it produces is chain
sorted under the active conditions — so when the caller rebuilds
`orderedHandles` from the new container order, as the spec obliges it to,
the precondition of a subsequent insert holds. -/
theorem claim_C5_resort_postcondition (c es : List Nat) (conds : List Condition)
    (f : Nat → ItemObject) (hperm : c.Perm es) (hnd : es.Nodup)
    (htag : ∀ cd ∈ conds, readsIndexTag cd.fieldName = false) :
    (ElementSorter.sortElements c es conds f).2 = es ∧
    sortedMirror conds f (ElementSorter.sortElements c es conds f).1 = true := by
  constructor
  · rfl
  · rw [sortElements_container c es conds f hperm hnd htag]
    unfold referenceStableSort sortedMirror
    exact sortItems_chain _ (fun x y => compareObjects_antisymm (f x) (f y) conds) es

theorem claim_C5_resort_postcondition_witness :
    ([2, 0, 1] : List Nat).Perm [0, 1, 2] ∧ ([0, 1, 2] : List Nat).Nodup ∧
    (∀ cd ∈ ([⟨"id", true⟩] : List Condition), readsIndexTag cd.fieldName = false) ∧
    (ElementSorter.sortElements [2, 0, 1] [0, 1, 2] [⟨"id", true⟩] sampleMap).2 = [0, 1, 2] ∧
    sortedMirror [⟨"id", true⟩] sampleMap
      (ElementSorter.sortElements [2, 0, 1] [0, 1, 2] [⟨"id", true⟩] sampleMap).1 = true :=
  ⟨by decide, by decide, by decide,
    (claim_C5_resort_postcondition [2, 0, 1] [0, 1, 2] [⟨"id", true⟩] sampleMap
      (by decide) (by decide) (by decide)).1,
    (claim_C5_resort_postcondition [2, 0, 1] [0, 1, 2] [⟨"id", true⟩] sampleMap
      (by decide) (by decide) (by decide)).2⟩

/-- C6: `parseCondition` returns one condition per comma-separated token,
each token trimmed, a case-insensitive "desc" suffix yielding
`isAscendingOrder = false` with the marker stripped and the remainder
re-trimmed, any other token yielding `isAscendingOrder = true`; in
particular `"field DESC"`, `"field"` and `"a DESC, b"` parse to the claimed
directions. -/
theorem claim_C6_parser_directions :
    (∀ expression : String, expression ≠ "" →
      ElementSorter.parseCondition expression =
        (splitChar ',' expression).map tokenOrderField) ∧
    ElementSorter.parseCondition "field DESC" = [⟨"field", false⟩] ∧
    ElementSorter.parseCondition "field" = [⟨"field", true⟩] ∧
    ElementSorter.parseCondition "a DESC, b" = [⟨"a", false⟩, ⟨"b", true⟩] := by
  refine ⟨?_, by decide, by decide, by decide⟩
  intro expression h
  unfold ElementSorter.parseCondition
  rw [if_neg h]
  rfl

theorem claim_C6_parser_directions_witness :
    ("number Desc, meta.type" ≠ "") ∧
    ElementSorter.parseCondition "number Desc, meta.type" =
      (splitChar ',' "number Desc, meta.type").map tokenOrderField :=
  ⟨by decide, claim_C6_parser_directions.1 "number Desc, meta.type" (by decide)⟩

/-- C7: `_compareField` applies the undefined/null policy before any type
comparison (both undefined ⇒ 0; exactly one undefined ⇒ the undefined side
sorts first; both null ⇒ 0; exactly one null ⇒ the null side sorts first),
and consequently sorting handles carrying the field values
`[undefined, null, 1, 2]` from any starting arrangement yields exactly that
ascending order, and the reverse descending order. -/
theorem claim_C7_null_undefined_policy :
    (∀ (l r : ItemObject) (path : String),
      (getPropertyValueByNamePath l path = .undef →
        getPropertyValueByNamePath r path = .undef →
        ElementSorter.compareField l r path = 0) ∧
      (getPropertyValueByNamePath l path = .undef →
        getPropertyValueByNamePath r path ≠ .undef →
        ElementSorter.compareField l r path = -1) ∧
      (getPropertyValueByNamePath l path ≠ .undef →
        getPropertyValueByNamePath r path = .undef →
        ElementSorter.compareField l r path = 1) ∧
      (getPropertyValueByNamePath l path = .jnull →
        getPropertyValueByNamePath r path = .jnull →
        ElementSorter.compareField l r path = 0) ∧
      (getPropertyValueByNamePath l path = .jnull →
        getPropertyValueByNamePath r path ≠ .undef →
        getPropertyValueByNamePath r path ≠ .jnull →
        ElementSorter.compareField l r path = -1) ∧
      (getPropertyValueByNamePath l path ≠ .undef →
        getPropertyValueByNamePath l path ≠ .jnull →
        getPropertyValueByNamePath r path = .jnull →
        ElementSorter.compareField l r path = 1)) ∧
    (∀ es ∈ List.permutations' [0, 1, 2, 3],
      ((ElementSorter.sortElements es es [⟨"v", true⟩] valueMap).1).map
          (fun h => getPropertyValueByNamePath (valueMap h) "v") =
        [.undef, .jnull, .num 1, .num 2]) ∧
    (∀ es ∈ List.permutations' [0, 1, 2, 3],
      ((ElementSorter.sortElements es es [⟨"v", false⟩] valueMap).1).map
          (fun h => getPropertyValueByNamePath (valueMap h) "v") =
        [.num 2, .num 1, .jnull, .undef]) := by
  refine ⟨?_, by decide, by decide⟩
  intro l r path
  refine ⟨?_, ?_, ?_, ?_, ?_, ?_⟩
  · intro h1 h2
    simp [ElementSorter.compareField, cmpVals, h1, h2]
  · intro h1 h2
    simp [ElementSorter.compareField, cmpVals, h1, h2]
  · intro h1 h2
    simp [ElementSorter.compareField, cmpVals, h1, h2]
  · intro h1 h2
    simp [ElementSorter.compareField, cmpVals, h1, h2]
  · intro h1 h2 h3
    simp [ElementSorter.compareField, cmpVals, h1, h2, h3]
  · intro h1 h2 h3
    simp [ElementSorter.compareField, cmpVals, h1, h2, h3]

theorem claim_C7_null_undefined_policy_witness :
    getPropertyValueByNamePath (valueMap 1) "v" = .jnull ∧
    getPropertyValueByNamePath (valueMap 2) "v" ≠ .undef ∧
    getPropertyValueByNamePath (valueMap 2) "v" ≠ .jnull ∧
    ElementSorter.compareField (valueMap 1) (valueMap 2) "v" = -1 ∧
    [3, 1, 0, 2] ∈ List.permutations' [0, 1, 2, 3] ∧
    ((ElementSorter.sortElements [3, 1, 0, 2] [3, 1, 0, 2] [⟨"v", true⟩] valueMap).1).map
        (fun h => getPropertyValueByNamePath (valueMap h) "v") =
      [.undef, .jnull, .num 1, .num 2] :=
  ⟨by decide, by decide, by decide,
    (claim_C7_null_undefined_policy.1 (valueMap 1) (valueMap 2) "v").2.2.2.2.1
      (by decide) (by decide) (by decide),
    by decide,
    claim_C7_null_undefined_policy.2.1 [3, 1, 0, 2] (by decide)⟩

/-- C8: under the precondition that the resolved field values are
type-compatible (same supported comparable runtime type, or
null/undefined), `_compareField` is antisymmetric and transitive. -/
theorem claim_C8_comparator_laws (a b c : ItemObject) (path : String)
    (hab : kindCompat (getPropertyValueByNamePath a path)
      (getPropertyValueByNamePath b path) = true)
    (hbc : kindCompat (getPropertyValueByNamePath b path)
      (getPropertyValueByNamePath c path) = true)
    (hac : kindCompat (getPropertyValueByNamePath a path)
      (getPropertyValueByNamePath c path) = true) :
    ElementSorter.compareField a b path = -ElementSorter.compareField b a path ∧
    (ElementSorter.compareField a b path ≤ 0 → ElementSorter.compareField b c path ≤ 0 →
      ElementSorter.compareField a c path ≤ 0) :=
  ⟨compareField_antisymm a b path,
    fun h1 h2 => cmpVals_trans _ _ _ hab hbc hac h1 h2⟩

theorem claim_C8_comparator_laws_witness :
    kindCompat (getPropertyValueByNamePath (sampleMap 0) "id")
      (getPropertyValueByNamePath (sampleMap 1) "id") = true ∧
    ElementSorter.compareField (sampleMap 0) (sampleMap 1) "id" =
      -ElementSorter.compareField (sampleMap 1) (sampleMap 0) "id" ∧
    (ElementSorter.compareField (sampleMap 0) (sampleMap 1) "id" ≤ 0 →
      ElementSorter.compareField (sampleMap 1) (sampleMap 2) "id" ≤ 0 →
      ElementSorter.compareField (sampleMap 0) (sampleMap 2) "id" ≤ 0) :=
  ⟨by decide,
    (claim_C8_comparator_laws (sampleMap 0) (sampleMap 1) (sampleMap 2) "id"
      (by decide) (by decide) (by decide)).1,
    (claim_C8_comparator_laws (sampleMap 0) (sampleMap 1) (sampleMap 2) "id"
      (by decide) (by decide) (by decide)).2⟩

/-- C9: when the caller's mapping function throws on the element at index
`k` of `addElements` (and succeeds on the existing mirror and on the
elements before it), the exception escapes `insertElement` uncaught, no
recovery is attempted, and the container and mirror retain exactly the
insertions of the first `k` elements already processed by the per-item
loop. -/
theorem claim_C9_exception_propagation (c m adds : List Nat) (conds : List Condition)
    (g : Nat → ItemObject) (p : Nat → Bool) (k : Nat)
    (hk : k < adds.length)
    (hmir : ∀ e ∈ m, p e = false)
    (hpre : ∀ i, i < k → p (adds.getD i 0) = false)
    (hthrow : p (adds.getD k 0) = true) :
    ElementSorter.insertElementExc c m adds conds
        (fun h => if p h then .error () else .ok (g h)) =
      (ElementSorter.insertElement c m (adds.take k) conds g, true) := by
  unfold ElementSorter.insertElementExc ElementSorter.insertElement
  rw [mapItemObjects_ok g p m hmir]
  exact insertLoopExc_throw g p conds adds k c m (m.map g) hk hpre hthrow

theorem claim_C9_exception_propagation_witness :
    (1 < ([3, 4, 5] : List Nat).length) ∧
    (∀ e ∈ ([0, 1] : List Nat), (decide (e = 4)) = false) ∧
    ElementSorter.insertElementExc [0, 1] [0, 1] [3, 4, 5] [⟨"id", true⟩]
        (fun h => if h = 4 then .error () else .ok (sampleMap h)) =
      (ElementSorter.insertElement [0, 1] [0, 1] [3] [⟨"id", true⟩] sampleMap, true) :=
  ⟨by decide, by decide, by
    have := claim_C9_exception_propagation [0, 1] [0, 1] [3, 4, 5] [⟨"id", true⟩]
      sampleMap (fun h => decide (h = 4)) 1 (by decide) (by decide) (by decide) (by decide)
    simpa using this⟩

/-- C10 (counterexample): with mixed-type field values — input the spec
leaves unspecified — a new item can tie with an existing item and still be
placed before it: ids `[2, "zz"]` are chain sorted, the new item `1` ties
with `"zz"` (mixed comparison is unordered, result 0) but compares below
`2`, so `_findPosition` returns 0 and the new item lands at the front,
before an item it ties with. -/
theorem claim_C10_ties_counterexample :
    sortedMirror [⟨"v", true⟩] mixedMap [0, 1] = true ∧
    ElementSorter.compareObjects (mixedMap 2) (mixedMap 1) [⟨"v", true⟩] = 0 ∧
    (ElementSorter.insertElement [0, 1] [0, 1] [2] [⟨"v", true⟩] mixedMap).2 = [2, 0, 1] :=
  ⟨by decide, by decide, by decide⟩

/-- C10 (amended): for an `insertElement` call satisfying the sortedness
precondition whose item objects are per-field type-compatible (the input
domain the spec supports), a new item that ties with existing items is
spliced at an index strictly after every existing item it ties with —
arrival order is preserved among ties, newest last. -/
theorem claim_C10_ties_go_last (c m : List Nat) (conds : List Condition)
    (f : Nat → ItemObject) (a : Nat)
    (hm : sortedMirror conds f m = true)
    (hw : wellTypedB conds f (a :: m) = true) :
    ∃ pos : Nat, pos ≤ m.length ∧
      (ElementSorter.insertElement c m [a] conds f).2 = m.insertIdx pos a ∧
      ∀ j : Nat, j < m.length →
        ElementSorter.compareObjects (f a) (f (m.getD j 0)) conds = 0 → j < pos := by
  rw [insertElement_snd]
  simp only [List.foldl_cons, List.foldl_nil]
  have hcompat := wellTypedB_fieldsCompat conds f (a :: m) hw
  have hmemD : ∀ n, n < m.length → m.getD n 0 ∈ m := by
    intro n hn
    rw [List.getD_eq_getElem m 0 hn]
    exact List.getElem_mem hn
  unfold insertStepSpec insertPositionSpec
  by_cases hc : conds = []
  · rw [if_pos hc]
    refine ⟨m.length, le_refl _, (List.insertIdx_length_self m a).symm, ?_⟩
    intro j hj _
    exact hj
  · rw [if_neg hc]
    cases hfi : m.findIdx?
        (fun e => decide (ElementSorter.compareObjects (f a) (f e) conds < 0)) with
    | none =>
      refine ⟨m.length, le_refl _, (List.insertIdx_length_self m a).symm, ?_⟩
      intro j hj _
      exact hj
    | some i =>
      have hspec := findIdx?_some_spec
        (fun e => decide (ElementSorter.compareObjects (f a) (f e) conds < 0)) 0 m i hfi
      refine ⟨i, le_of_lt hspec.1, rfl, ?_⟩
      intro j hj hcmp
      by_contra hcon
      push_neg at hcon
      have hqi : ElementSorter.compareObjects (f a) (f (m.getD i 0)) conds < 0 := by
        have := hspec.2.1
        simpa using this
      rcases Nat.lt_or_ge i j with hlt | hge
      · have hpair := chainLe_pairwise
          (fun x y => decide (ElementSorter.compareObjects (f x) (f y) conds ≤ 0)) 0 m hm
          (by
            intro x y z hx hy hz hxy hyz
            simp only [decide_eq_true_eq] at hxy hyz ⊢
            exact compareObjects_trans (f x) (f y) (f z) conds
              (hcompat x (by simp [hx]) y (by simp [hy]))
              (hcompat y (by simp [hy]) z (by simp [hz]))
              (hcompat x (by simp [hx]) z (by simp [hz])) hxy hyz)
          i j hlt hj
        have hij : ElementSorter.compareObjects (f (m.getD i 0)) (f (m.getD j 0)) conds ≤ 0 := by
          simpa using hpair
        have : ElementSorter.compareObjects (f a) (f (m.getD j 0)) conds < 0 :=
          compareObjects_lt_le_trans (f a) (f (m.getD i 0)) (f (m.getD j 0)) conds
            (hcompat a (List.mem_cons_self a m) (m.getD i 0)
              (List.mem_cons_of_mem a (hmemD i hspec.1)))
            (hcompat (m.getD i 0) (List.mem_cons_of_mem a (hmemD i hspec.1)) (m.getD j 0)
              (List.mem_cons_of_mem a (hmemD j hj)))
            (hcompat a (List.mem_cons_self a m) (m.getD j 0)
              (List.mem_cons_of_mem a (hmemD j hj))) hqi hij
        omega
      · have hij : i = j := by omega
        subst hij
        omega

theorem claim_C10_ties_go_last_witness :
    sortedMirror [⟨"id", true⟩] (fun _ => [("id", .val (.num 7))]) [10, 11] = true ∧
    wellTypedB [⟨"id", true⟩] (fun _ => [("id", .val (.num 7))]) [12, 10, 11] = true ∧
    ∃ pos : Nat, pos ≤ 2 ∧
      (ElementSorter.insertElement [10, 11] [10, 11] [12] [⟨"id", true⟩]
          (fun _ => [("id", .val (.num 7))])).2 = [10, 11].insertIdx pos 12 ∧
      ∀ j : Nat, j < 2 →
        ElementSorter.compareObjects ((fun _ : Nat => [("id", JSTree.val (.num 7))]) 12)
          ((fun _ : Nat => [("id", JSTree.val (.num 7))]) ([10, 11].getD j 0))
          [⟨"id", true⟩] = 0 → j < pos :=
  ⟨by decide, by decide,
    claim_C10_ties_go_last [10, 11] [10, 11] [⟨"id", true⟩]
      (fun _ => [("id", .val (.num 7))]) 12 (by decide) (by decide)⟩
